import Mathlib

/-!
# kube-inspect: reconciliation and structural diff engine — verification

Shallow embedding of the diff-related core of the `kube-inspect` repository:

* the resource-set reconciler `DiffResources` and its grouping helper
  `resourcesByGroupVersionKindAndName` (`kube/resource.go`),
* the Helm-side grouping `resourceGroupsFromChart` (`helm/diff.go`),
* the manifest decoding loop `ResourcesFromManifest` (`kube/resource.go`),
* the tree comparator, modelled from the specification (§4.2), since its
  implementation (the dyff library) is an external dependency whose code is
  not part of this repository.

Go strings are modelled as `List Char`; Go maps as association lists with
first-insertion key order and overwrite-on-repeated-key (`setA`), which is
the content of a Go map (iteration order is treated separately where a
property depends on it).  Fallible Go functions returning `(T, error)` are
modelled as `Except (List Char) T`.
-/

namespace KubeInspect

/-- A scalar leaf of a semi-structured (YAML-like) tree: string, integer,
boolean or null.  Modelled from the spec §3 ("map/array/scalar nodes"). -/
inductive Scalar where
  | sStr (s : List Char)
  | sInt (n : Int)
  | sBool (b : Bool)
  | sNull
deriving DecidableEq

/-- A semi-structured document tree: scalar leaves, map nodes (ordered
association lists of key/subtree pairs, document order) and sequence nodes.
Modelled from the spec §3 `ResourceDocument` ("an ordered semi-structured
tree (map/array/scalar nodes)"). -/
inductive YTree where
  | scalar (v : Scalar)
  | node (entries : List (List Char × YTree))
  | seq (items : List YTree)

instance : Nonempty YTree := ⟨.seq []⟩

theorem sizeOf_snd_lt_of_mem {es : List (List Char × YTree)}
    {kt : List Char × YTree} (h : kt ∈ es) : sizeOf kt.2 < sizeOf es := by
  have h1 := List.sizeOf_lt_of_mem h
  obtain ⟨k, t⟩ := kt
  simp at h1 ⊢
  omega

theorem YTree.strongInd (motive : YTree → Prop)
    (h : ∀ t, (∀ s, sizeOf s < sizeOf t → motive s) → motive t) :
    ∀ t, motive t := by
  intro t
  have key : ∀ n, ∀ t : YTree, sizeOf t < n → motive t := by
    intro n
    induction n with
    | zero => intro t ht; omega
    | succ n ih => intro t _; exact h t (fun s hs => ih s (by omega))
  exact key (sizeOf t + 1) t (by omega)

/-- Structural induction for `YTree` with member hypotheses for the nested
lists, derived from strong induction on `sizeOf`. -/
theorem YTree.inducts (motive : YTree → Prop)
    (hs : ∀ v, motive (.scalar v))
    (hn : ∀ es, (∀ kt ∈ es, motive kt.2) → motive (.node es))
    (hq : ∀ ts, (∀ t ∈ ts, motive t) → motive (.seq ts)) :
    ∀ t, motive t := by
  apply YTree.strongInd
  intro t ih
  match t with
  | .scalar v => exact hs v
  | .node es =>
      exact hn es (fun kt hkt => ih _ (by
        have := sizeOf_snd_lt_of_mem hkt; simp; omega))
  | .seq ts =>
      exact hq ts (fun u hu => ih _ (by
        have := List.sizeOf_lt_of_mem hu; simp; omega))

mutual

/-- Boolean structural equality of trees (decidable equality below). -/
def ytEq : YTree → YTree → Bool
  | .scalar x, .scalar y => decide (x = y)
  | .node xs, .node ys => entEq xs ys
  | .seq xs, .seq ys => seqEq xs ys
  | _, _ => false
  termination_by a b => sizeOf a + sizeOf b

def entEq : List (List Char × YTree) → List (List Char × YTree) → Bool
  | [], [] => true
  | (k, t) :: xs, (k', u) :: ys => decide (k = k') && ytEq t u && entEq xs ys
  | _, _ => false
  termination_by xs ys => sizeOf xs + sizeOf ys
  decreasing_by
  · simp; omega
  · simp; omega

def seqEq : List YTree → List YTree → Bool
  | [], [] => true
  | t :: xs, u :: ys => ytEq t u && seqEq xs ys
  | _, _ => false
  termination_by xs ys => sizeOf xs + sizeOf ys
  decreasing_by
  · simp; omega
  · simp; omega

end

theorem entEq_iff (xs ys : List (List Char × YTree))
    (H : ∀ e ∈ xs, ∀ b, ytEq e.2 b = true ↔ e.2 = b) :
    entEq xs ys = true ↔ xs = ys := by
  induction xs generalizing ys with
  | nil => cases ys <;> simp [entEq]
  | cons e xs ih =>
      obtain ⟨k, t⟩ := e
      cases ys with
      | nil => simp [entEq]
      | cons f ys =>
          obtain ⟨k', u⟩ := f
          have ht := H (k, t) (by simp) u
          have hrest : ∀ e ∈ xs, ∀ b, ytEq e.2 b = true ↔ e.2 = b :=
            fun e he b => H e (by simp [he]) b
          simp [entEq, ht, ih ys hrest]

theorem seqEq_iff (xs ys : List YTree)
    (H : ∀ t ∈ xs, ∀ b, ytEq t b = true ↔ t = b) :
    seqEq xs ys = true ↔ xs = ys := by
  induction xs generalizing ys with
  | nil => cases ys <;> simp [seqEq]
  | cons t xs ih =>
      cases ys with
      | nil => simp [seqEq]
      | cons u ys =>
          have ht := H t (by simp) u
          have hrest : ∀ t ∈ xs, ∀ b, ytEq t b = true ↔ t = b :=
            fun t htm b => H t (by simp [htm]) b
          simp [seqEq, ht, ih ys hrest]

theorem ytEq_iff : ∀ a b : YTree, ytEq a b = true ↔ a = b := by
  intro a
  induction a using YTree.inducts with
  | hs v => intro b; cases b <;> simp [ytEq]
  | hn es ih =>
      intro b
      cases b <;> simp [ytEq]
      exact entEq_iff es _ ih
  | hq ts ih =>
      intro b
      cases b <;> simp [ytEq]
      exact seqEq_iff ts _ ih

instance : DecidableEq YTree :=
  fun a b => decidable_of_iff (ytEq a b = true) (ytEq_iff a b)

/-- One step of a tree path: a map key or an array index (spec §3,
`DifferenceRecord.path`: "ordered sequence of map-keys/array-indices"). -/
inductive PathStep where
  | key (k : List Char)
  | idx (i : Nat)
deriving DecidableEq

/-- One semantic difference at a tree path (spec §3 `DifferenceRecord`,
`kind ∈ {Addition, Removal, ValueChange, TypeChange, OrderChange, Rename}`).
The `rename` kind belongs to the data model; the spec leaves the rename
detection heuristic unspecified (§9, open question), so the modelled
comparator below never emits it. -/
inductive DiffRecord where
  | addition (path : List PathStep) (after : YTree)
  | removal (path : List PathStep) (before : YTree)
  | valueChange (path : List PathStep) (before after : Scalar)
  | typeChange (path : List PathStep) (before after : YTree)
  | orderChange (path : List PathStep) (before after : List YTree)
  | rename (path : List PathStep) (before after : YTree)
deriving DecidableEq

/-- Comparator options, modelled from the spec §4.2.  In the source these
are the four dyff options passed at the `CompareInputFiles` call sites
(`diff/diff.go` `New`, `helm/diff.go` `dyffReport`); the repository's own
`DiffOptions` struct is empty.  The rename and domain-entity heuristics are
left open by the spec (§9), and the claims under verification never reach
them, so the modelled algorithm does not consult those two fields. -/
structure DiffOptions where
  ignoreOrderChanges : Bool
  ignoreWhitespaceChanges : Bool
  detectRenames : Bool
  domainEntityDetection : Bool
deriving DecidableEq

/-- Whitespace test used by the `ignoreWhitespaceChanges` option. -/
def isWsChar (c : Char) : Bool :=
  c = ' ' || c = '\t' || c = '\n' || c = '\r'

/-- Whitespace normalization of a scalar string: split on whitespace and
re-join the non-empty tokens with single spaces (spec §4.2: "scalar string
comparison ignores leading/trailing/internal whitespace normalization"). -/
def wsNorm (s : List Char) : List Char :=
  List.intercalate [' '] ((s.splitOnP isWsChar).filter (fun t => t ≠ []))

/-- Scalar equality under the comparator options. -/
def scalarEq (o : DiffOptions) : Scalar → Scalar → Bool
  | .sStr a, .sStr b =>
      if o.ignoreWhitespaceChanges then wsNorm a = wsNorm b else a = b
  | x, y => x = y

/-- Whether two scalars have the same type (spec §4.2 step 1). -/
def sameScalarType : Scalar → Scalar → Bool
  | .sStr _, .sStr _ => true
  | .sInt _, .sInt _ => true
  | .sBool _, .sBool _ => true
  | .sNull, .sNull => true
  | _, _ => false

/-- Spec §4.2 step 1: equal scalars produce no record; unequal scalars of
the same type produce a `ValueChange`; unequal scalars of different types a
`TypeChange`. -/
def cmpScalar (o : DiffOptions) (p : List PathStep) (x y : Scalar) :
    List DiffRecord :=
  if scalarEq o x y then []
  else if sameScalarType x y then [.valueChange p x y]
  else [.typeChange p (.scalar x) (.scalar y)]

/-- Find the first entry with the given key in a map node's entry list and
return its subtree together with the remaining entries.  Realizes the
key-matching of spec §4.2 step 2 over ordered entry lists. -/
def findRemove (k : List Char) :
    List (List Char × YTree) → Option (YTree × List (List Char × YTree))
  | [] => none
  | (k', t) :: rest =>
      if k = k' then some (t, rest)
      else
        match findRemove k rest with
        | some (u, l) => some (u, (k', t) :: l)
        | none => none

theorem findRemove_sizeOf {k : List Char} {ys : List (List Char × YTree)}
    {u : YTree} {l : List (List Char × YTree)}
    (h : findRemove k ys = some (u, l)) :
    sizeOf u < sizeOf ys ∧ sizeOf l < sizeOf ys := by
  induction ys generalizing l with
  | nil => simp [findRemove] at h
  | cons e rest ih =>
      obtain ⟨k', t⟩ := e
      by_cases hk : k = k'
      · simp [findRemove, hk] at h
        obtain ⟨h1, h2⟩ := h
        subst h1; subst h2
        constructor <;> first
        | (simp; omega)
        | simp
      · simp only [findRemove, if_neg hk] at h
        cases hfr : findRemove k rest with
        | none => rw [hfr] at h; simp at h
        | some ul =>
            obtain ⟨u', l'⟩ := ul
            rw [hfr] at h
            simp at h
            obtain ⟨h1, h2⟩ := h
            subst h1
            obtain ⟨hu, hl⟩ := ih hfr
            subst h2
            constructor
            · simp; omega
            · simp at hl ⊢; omega

mutual

/-- The tree comparator.  Modelled from the spec: §4.2's algorithm for
`compare(a, b, options)`; the implementation it abstracts (the dyff
library invoked by `diff.New` and `helm.dyffReport`) is an external
dependency, not part of this repository.  Steps: (1) scalar vs scalar
comparison; (2) map nodes: keys only in A → `Removal`, only in B →
`Addition`, in both → recurse; (3) sequences: equal multiset in different
order → one `OrderChange` unless `ignoreOrderChanges` is set, otherwise
positional alignment; (4) node-type mismatch → `TypeChange`, recursion
stops. -/
def cmpTree (o : DiffOptions) (p : List PathStep) : YTree → YTree → List DiffRecord
  | .scalar x, .scalar y => cmpScalar o p x y
  | .node xs, .node ys => cmpEntries o p xs ys
  | .seq xs, .seq ys =>
      if xs = ys then []
      else if xs.Perm ys then
        if o.ignoreOrderChanges then [] else [.orderChange p xs ys]
      else cmpElems o p 0 xs ys
  | a, b => [.typeChange p a b]
  termination_by a b => sizeOf a + sizeOf b

/-- Spec §4.2 step 2 over ordered entry lists: walk A's entries in order,
matching each key against B's remaining entries (keys in both → recurse,
keys only in A → `Removal`); B's entries left unmatched → `Addition`. -/
def cmpEntries (o : DiffOptions) (p : List PathStep) :
    List (List Char × YTree) → List (List Char × YTree) → List DiffRecord
  | [], ys => ys.map (fun e => .addition (p ++ [.key e.1]) e.2)
  | (k, t) :: xs, ys =>
      match h : findRemove k ys with
      | some (u, rest) =>
          cmpTree o (p ++ [.key k]) t u ++ cmpEntries o p xs rest
      | none => .removal (p ++ [.key k]) t :: cmpEntries o p xs ys
  termination_by xs ys => sizeOf xs + sizeOf ys
  decreasing_by
  all_goals try (have h1 := (findRemove_sizeOf h).1;
                 have h2 := (findRemove_sizeOf h).2)
  all_goals first
  | (simp; omega)
  | simp
  | omega

/-- Spec §4.2 step 3, positional alignment of sequence elements: recurse
pairwise by index; surplus elements of A are `Removal`s, of B `Addition`s. -/
def cmpElems (o : DiffOptions) (p : List PathStep) (i : Nat) :
    List YTree → List YTree → List DiffRecord
  | [], [] => []
  | [], u :: ys => .addition (p ++ [.idx i]) u :: cmpElems o p (i + 1) [] ys
  | t :: xs, [] => .removal (p ++ [.idx i]) t :: cmpElems o p (i + 1) xs []
  | t :: xs, u :: ys =>
      cmpTree o (p ++ [.idx i]) t u ++ cmpElems o p (i + 1) xs ys
  termination_by xs ys => sizeOf xs + sizeOf ys
  decreasing_by
  all_goals first
  | (simp; omega)
  | simp
  | omega

end

theorem scalarEq_refl (o : DiffOptions) (x : Scalar) : scalarEq o x x = true := by
  cases x <;> simp [scalarEq]

theorem cmpScalar_refl (o : DiffOptions) (p : List PathStep) (x : Scalar) :
    cmpScalar o p x x = [] := by
  simp [cmpScalar, scalarEq_refl]

theorem findRemove_head (k : List Char) (t : YTree)
    (rest : List (List Char × YTree)) :
    findRemove k ((k, t) :: rest) = some (t, rest) := by
  simp [findRemove]

theorem cmpEntries_head (o : DiffOptions) (p : List PathStep) (k : List Char)
    (t u : YTree) (xs ys rest : List (List Char × YTree))
    (hfr : findRemove k ys = some (u, rest)) :
    cmpEntries o p ((k, t) :: xs) ys =
      cmpTree o (p ++ [.key k]) t u ++ cmpEntries o p xs rest := by
  simp only [cmpEntries]
  split
  · rename_i u' rest' h
    rw [hfr] at h
    simp at h
    obtain ⟨h1, h2⟩ := h
    rw [h1, h2]
  · rename_i h
    rw [hfr] at h
    simp at h

theorem cmpEntries_refl (o : DiffOptions) (es : List (List Char × YTree))
    (H : ∀ kt ∈ es, ∀ p, cmpTree o p kt.2 kt.2 = []) :
    ∀ p, cmpEntries o p es es = [] := by
  induction es with
  | nil => intro p; simp [cmpEntries]
  | cons e xs ih =>
      intro p
      obtain ⟨k, t⟩ := e
      have ht := H (k, t) (by simp) (p ++ [.key k])
      have hrest : ∀ kt ∈ xs, ∀ p, cmpTree o p kt.2 kt.2 = [] :=
        fun kt hm p => H kt (by simp [hm]) p
      rw [cmpEntries_head o p k t t xs ((k, t) :: xs) xs (findRemove_head k t xs)]
      simp [ht, ih hrest p]

/-- Spec §8 "Reflexivity": `compare(a, a, opts)` yields an empty DiffResult
for any tree `a` and any options. -/
theorem cmpTree_refl (o : DiffOptions) :
    ∀ a : YTree, ∀ p, cmpTree o p a a = [] := by
  intro a
  induction a using YTree.inducts with
  | hs v => intro p; simp [cmpTree, cmpScalar_refl]
  | hn es ih =>
      intro p
      simp only [cmpTree]
      exact cmpEntries_refl o es ih p
  | hq ts _ => intro p; simp [cmpTree]

theorem cmpElems_refl (o : DiffOptions) (ts : List YTree) :
    ∀ p i, cmpElems o p i ts ts = [] := by
  induction ts with
  | nil => intro p i; simp [cmpElems]
  | cons t xs ih => intro p i; simp [cmpElems, cmpTree_refl, ih]

/-- The relation "tree `b` is tree `a` with the elements of exactly one
(possibly nested) sequence node permuted, preserving the multiset but not
the order" (spec §8, "Order-insensitivity toggle"). -/
inductive OnePerm : YTree → YTree → Prop
  | base (xs ys : List YTree) (hp : xs.Perm ys) (hne : xs ≠ ys) :
      OnePerm (.seq xs) (.seq ys)
  | nodeCongr (es₁ es₂ : List (List Char × YTree)) (k : List Char)
      (t u : YTree) (h : OnePerm t u) :
      OnePerm (.node (es₁ ++ (k, t) :: es₂)) (.node (es₁ ++ (k, u) :: es₂))
  | seqCongr (l₁ l₂ : List YTree) (t u : YTree) (h : OnePerm t u) :
      OnePerm (.seq (l₁ ++ t :: l₂)) (.seq (l₁ ++ u :: l₂))

theorem OnePerm.ne {a b : YTree} (h : OnePerm a b) : a ≠ b := by
  induction h with
  | base xs ys hp hne => simp [hne]
  | nodeCongr es₁ es₂ k t u h ih =>
      simp only [ne_eq, YTree.node.injEq]
      intro he
      exact ih (by
        have := List.append_cancel_left he
        simpa using this)
  | seqCongr l₁ l₂ t u h ih =>
      simp only [ne_eq, YTree.seq.injEq]
      intro he
      exact ih (by
        have := List.append_cancel_left he
        simpa using this)

theorem cmpEntries_congr (o : DiffOptions) (k : List Char) (t u : YTree)
    (es₁ es₂ : List (List Char × YTree)) :
    ∀ p, cmpEntries o p (es₁ ++ (k, t) :: es₂) (es₁ ++ (k, u) :: es₂) =
      cmpTree o (p ++ [.key k]) t u := by
  induction es₁ with
  | nil =>
      intro p
      rw [List.nil_append, List.nil_append,
        cmpEntries_head o p k t u es₂ ((k, u) :: es₂) es₂ (findRemove_head k u es₂)]
      simp [cmpEntries_refl o es₂ (fun kt _ p => cmpTree_refl o kt.2 p)]
  | cons e es ih =>
      intro p
      obtain ⟨k₀, t₀⟩ := e
      rw [List.cons_append, List.cons_append,
        cmpEntries_head o p k₀ t₀ t₀ (es ++ (k, t) :: es₂)
          ((k₀, t₀) :: (es ++ (k, u) :: es₂)) (es ++ (k, u) :: es₂)
          (findRemove_head k₀ t₀ (es ++ (k, u) :: es₂))]
      simp [cmpTree_refl, ih p]

theorem cmpElems_congr (o : DiffOptions) (t u : YTree) (l₂ : List YTree) :
    ∀ l₁ p i, cmpElems o p i (l₁ ++ t :: l₂) (l₁ ++ u :: l₂) =
      cmpTree o (p ++ [.idx (i + l₁.length)]) t u := by
  intro l₁
  induction l₁ with
  | nil => intro p i; simp [cmpElems, cmpTree_refl, cmpElems_refl]
  | cons x xs ih =>
      intro p i
      have := ih p (i + 1)
      simp [cmpElems, cmpTree_refl, this]
      ring_nf

theorem not_perm_of_single_ne {t u : YTree} (hne : t ≠ u)
    (l₁ l₂ : List YTree) : ¬ (l₁ ++ t :: l₂).Perm (l₁ ++ u :: l₂) := by
  intro hp
  apply hne
  have h1 : (t :: l₂).Perm (u :: l₂) :=
    ((List.perm_append_left_iff l₁).1 hp)
  have h2 : (t ::ₘ (l₂ : Multiset YTree)) = u ::ₘ (l₂ : Multiset YTree) := by
    exact_mod_cast Multiset.coe_eq_coe.2 h1
  exact (Multiset.cons_inj_left _).1 h2

theorem onePerm_cmp (o : DiffOptions) {a b : YTree} (h : OnePerm a b) :
    ∀ p, (o.ignoreOrderChanges = true → cmpTree o p a b = []) ∧
      (o.ignoreOrderChanges = false →
        ∃ q xs ys, cmpTree o p a b = [.orderChange q xs ys]) := by
  induction h with
  | base xs ys hp hne =>
      intro p
      constructor
      · intro hi; simp [cmpTree, hne, hp, hi]
      · intro hi
        exact ⟨p, xs, ys, by simp [cmpTree, hne, hp, hi]⟩
  | nodeCongr es₁ es₂ k t u h ih =>
      intro p
      have hw := cmpEntries_congr o k t u es₁ es₂ p
      have hmain := ih (p ++ [.key k])
      constructor
      · intro hi
        simp only [cmpTree, hw]
        exact hmain.1 hi
      · intro hi
        obtain ⟨q, xs, ys, hq⟩ := hmain.2 hi
        exact ⟨q, xs, ys, by simp only [cmpTree, hw]; exact hq⟩
  | seqCongr l₁ l₂ t u h ih =>
      intro p
      have hne : (l₁ ++ t :: l₂) ≠ (l₁ ++ u :: l₂) := by
        intro he
        exact h.ne (by simpa using List.append_cancel_left he)
      have hnp := not_perm_of_single_ne h.ne l₁ l₂
      have hw := cmpElems_congr o t u l₂ l₁ p 0
      have hmain := ih (p ++ [.idx (0 + l₁.length)])
      constructor
      · intro hi
        simp only [cmpTree, if_neg hne, if_neg hnp, hw]
        exact hmain.1 hi
      · intro hi
        obtain ⟨q, xs, ys, hq⟩ := hmain.2 hi
        exact ⟨q, xs, ys, by simp only [cmpTree, if_neg hne, if_neg hnp, hw]; exact hq⟩

/-- C7: the tree comparison is reflexive — for every tree `a`, every path
and every choice of options, comparing `a` with itself yields an empty
DiffResult (zero difference records); consequently a resource identical in
both sets produces an empty report and is classified Unchanged. -/
theorem c7_compare_self_empty (o : DiffOptions) (a : YTree) (p : List PathStep) :
    cmpTree o p a a = [] :=
  cmpTree_refl o a p

/-- C8: for every tree `a` and tree `b` equal to `a` with one list's
elements permuted (same multiset, different order), comparing with
`ignoreOrderChanges = true` yields an empty DiffResult, while comparing
with `ignoreOrderChanges = false` yields exactly one `OrderChange` record
(a singleton DiffResult). -/
theorem c8_ignore_order_toggle (a b : YTree) (h : OnePerm a b)
    (o o' : DiffOptions) (ht : o.ignoreOrderChanges = true)
    (hf : o'.ignoreOrderChanges = false) :
    cmpTree o [] a b = [] ∧
      ∃ q xs ys, cmpTree o' [] a b = [.orderChange q xs ys] :=
  ⟨(onePerm_cmp o h []).1 ht, (onePerm_cmp o' h []).2 hf⟩

/-- A two-element sequence and its swap, used as the concrete input of the
C8 witness. -/
def exSeqA : YTree := .seq [.scalar (.sInt 1), .scalar (.sInt 2)]

def exSeqB : YTree := .seq [.scalar (.sInt 2), .scalar (.sInt 1)]

/-- The option sets used at the dyff call sites, with `ignoreOrderChanges`
toggled: the call sites pass (order=false, whitespace=false, entity=true,
renames=true). -/
def optIgnoreOrder : DiffOptions :=
  { ignoreOrderChanges := true, ignoreWhitespaceChanges := false,
    detectRenames := true, domainEntityDetection := true }

def optReportOrder : DiffOptions :=
  { ignoreOrderChanges := false, ignoreWhitespaceChanges := false,
    detectRenames := true, domainEntityDetection := true }

theorem exSeq_onePerm : OnePerm exSeqA exSeqB :=
  OnePerm.base _ _
    (List.Perm.swap (YTree.scalar (Scalar.sInt 2)) (YTree.scalar (Scalar.sInt 1)) [])
    (by simp [Scalar.sInt.injEq])

theorem c8_witness :
    OnePerm exSeqA exSeqB ∧ optIgnoreOrder.ignoreOrderChanges = true ∧
      optReportOrder.ignoreOrderChanges = false ∧
      (cmpTree optIgnoreOrder [] exSeqA exSeqB = [] ∧
        ∃ q xs ys, cmpTree optReportOrder [] exSeqA exSeqB =
          [.orderChange q xs ys]) :=
  ⟨exSeq_onePerm, rfl, rfl,
    c8_ignore_order_toggle exSeqA exSeqB exSeq_onePerm
      optIgnoreOrder optReportOrder rfl rfl⟩

/-!
## Resource set reconciler (`kube/resource.go`)

A Kubernetes resource document is an unstructured tree whose identity
metadata (`GroupVersionKind`, `metadata.name`) is accessed through getters
and setters; it is modelled as a record of those metadata fields plus the
remaining document content.  `SetName` is the update of the `name` field.
-/

/-- One Kubernetes resource document (`unstructured.Unstructured`): its
group/version/kind, its `metadata.name`, and the rest of its content. -/
structure Resource where
  group : List Char
  version : List Char
  kind : List Char
  name : List Char
  body : YTree

instance : Nonempty Resource := ⟨⟨[], [], [], [], .seq []⟩⟩

/-- `groupVersionKindString` (`kube/resource.go`): the components joined
by `/`, with the group omitted when empty. -/
def groupVersionKindString (r : Resource) : List Char :=
  if r.group = [] then r.version ++ '/' :: r.kind
  else r.group ++ '/' :: r.version ++ '/' :: r.kind

/-- The synthetic name prefix `"kube-inspect-"` that the Helm templating
step prepends and the grouping functions strip. -/
def kubeInspectPfx : List Char := "kube-inspect-".toList

/-- `strings.CutPrefix p s`: `some rest` when `s = p ++ rest`, else
`none`. -/
def cutPfx : List Char → List Char → Option (List Char)
  | [], s => some s
  | _ :: _, [] => none
  | c :: ps, d :: ds => if c = d then cutPfx ps ds else none

/-- The name normalization performed by `resourcesByGroupVersionKindAndName`
(`strings.CutPrefix(name, "kube-inspect-")`) and by
`resourceGroupsFromChart` (`strings.HasPrefix` + `strings.TrimPrefix`,
which is the same function): strip one leading occurrence of the synthetic
prefix, if present. -/
def normalizeName (n : List Char) : List Char :=
  match cutPfx kubeInspectPfx n with
  | some rest => rest
  | none => n

/-- The in-place `SetName` mutation performed on a document whose name
carries the synthetic prefix. -/
def normalizeRes (r : Resource) : Resource :=
  { r with name := normalizeName r.name }

/-- Go map read (`m[k]`), on the association-list model of a map. -/
def lookupA {β : Type} : List (List Char × β) → List Char → Option β
  | [], _ => none
  | (k, v) :: rest, key => if key = k then some v else lookupA rest key

/-- Go map write (`m[k] = v`): overwrite the existing binding, else append
a new one.  Lists built only through `setA` have pairwise-distinct keys;
the list order is the insertion order (one canonical presentation of the
unordered Go map — iteration-order questions are treated by quantifying
over permutations of these lists). -/
def setA {β : Type} : List (List Char × β) → List Char → β → List (List Char × β)
  | [], key, v => [(key, v)]
  | (k, w) :: rest, key, v =>
      if key = k then (key, v) :: rest else (k, w) :: setA rest key v

/-- `kindNameResourceMap`: group-version-kind string → resource name →
resource. -/
abbrev GroupMap := List (List Char × List (List Char × Resource))

/-- One iteration of the loop in `resourcesByGroupVersionKindAndName`:
compute the group-version-kind key, strip the synthetic name prefix
(mutating the document), and store the document under (key, name). -/
def groupInsert (g : GroupMap) (r : Resource) : GroupMap :=
  let k := groupVersionKindString r
  let r' := normalizeRes r
  setA g k (setA ((lookupA g k).getD []) r'.name r')

/-- `resourcesByGroupVersionKindAndName` (`kube/resource.go`).  The first
component is the caller-visible content of the input slice after the call:
the loop mutates each document in place via `SetName`, so the caller's
slice afterwards holds the normalized documents.  The second component is
the returned two-level map. -/
def resourcesByGroupVersionKindAndName (rs : List Resource) :
    List Resource × GroupMap :=
  (rs.map normalizeRes, rs.foldl groupInsert [])

/-- `helm/diff.go` `resourceGroupsFromChart`: identical to the `kube`
grouping except that the outer key is the bare `Kind` (no group, no
version). -/
def helmGroupInsert (g : GroupMap) (r : Resource) : GroupMap :=
  let r' := normalizeRes r
  setA g r.kind (setA ((lookupA g r.kind).getD []) r'.name r')

def resourceGroupsFromChart (rs : List Resource) : GroupMap :=
  rs.foldl helmGroupInsert []

/-- The comparator handed to the reconciler: `diff.New(aRes, bRes)`, i.e.
the dyff comparison of the two documents, returning either an error or the
report's list of difference records (`report.Diffs`).  dyff is an external
dependency, so `DiffResources` is verified for an arbitrary comparator. -/
abbrev Cmp := Resource → Resource → Except (List Char) (List DiffRecord)

/-- A changed-map entry.  Go keys the `Changed` map by the string
`aKind ++ "/" ++ aName` where `aKind` is the group-version-kind string;
Kubernetes names contain no `/`, so that string key and this
(kind-string, name) pair are in bijection and the report is the value. -/
abbrev ChangedEntry := List Char × List Char × List DiffRecord

/-- `diff.ResourcesDiff`: the four classification buckets. -/
structure ResourcesDiff where
  Changed : List ChangedEntry
  Added : List Resource
  Removed : List Resource
  Unchanged : List Resource

/-- The inner loop of `DiffResources` over one kind's name→resource map:
a name absent from B's map of the same kind → removal; present → compare,
a failed comparison aborts with the error, a non-empty report → changed,
an empty report → unchanged. -/
def diffNames (C : Cmp) (kind : List Char)
    (bInner : List (List Char × Resource)) :
    List (List Char × Resource) →
      Except (List Char) (List Resource × List ChangedEntry × List Resource)
  | [] => .ok ([], [], [])
  | (n, r) :: rest =>
      match lookupA bInner n with
      | none =>
          match diffNames C kind bInner rest with
          | .error e => .error e
          | .ok (rem, chg, unch) => .ok (r :: rem, chg, unch)
      | some rb =>
          match C r rb with
          | .error e => .error e
          | .ok rep =>
              match diffNames C kind bInner rest with
              | .error e => .error e
              | .ok (rem, chg, unch) =>
                  if rep = [] then .ok (rem, chg, r :: unch)
                  else .ok (rem, (kind, n, rep) :: chg, unch)

/-- The first loop of `DiffResources` over A's kinds: a kind absent from B
→ all of its resources are removals; otherwise run the inner loop. -/
def diffKinds (C : Cmp) (bG : GroupMap) :
    GroupMap →
      Except (List Char) (List Resource × List ChangedEntry × List Resource)
  | [] => .ok ([], [], [])
  | (k, inner) :: rest =>
      match lookupA bG k with
      | none =>
          match diffKinds C bG rest with
          | .error e => .error e
          | .ok (rem, chg, unch) => .ok (inner.map Prod.snd ++ rem, chg, unch)
      | some bInner =>
          match diffNames C k bInner inner with
          | .error e => .error e
          | .ok (rem1, chg1, unch1) =>
              match diffKinds C bG rest with
              | .error e => .error e
              | .ok (rem, chg, unch) =>
                  .ok (rem1 ++ rem, chg1 ++ chg, unch1 ++ unch)

/-- The second loop of `DiffResources` over B's kinds.  Note the faithful
reproduction of the source: a kind present in B but absent from A sends
B's resources of that kind into the *removals* list (`kube/resource.go`
line 119, `helm/diff.go` line 160); only names missing within a kind that
both sets share become additions. -/
def secondPass (aG : GroupMap) : GroupMap → List Resource × List Resource
  | [] => ([], [])
  | (k, inner) :: rest =>
      let (rem, add) := secondPass aG rest
      match lookupA aG k with
      | none => (inner.map Prod.snd ++ rem, add)
      | some aInner =>
          (rem,
            (inner.filter (fun f => (lookupA aInner f.1).isNone)).map Prod.snd
              ++ add)

/-- `DiffResources` on already-grouped inputs (the body of the function
after the two grouping calls). -/
def diffGrouped (C : Cmp) (aG bG : GroupMap) :
    Except (List Char) ResourcesDiff :=
  match diffKinds C bG aG with
  | .error e => .error e
  | .ok (rem1, chg, unch) =>
      let (rem2, add) := secondPass aG bG
      .ok { Changed := chg, Added := add, Removed := rem1 ++ rem2,
            Unchanged := unch }

/-- `DiffResources` (`kube/resource.go`): group both slices, then run the
two classification loops. -/
def DiffResources (C : Cmp) (a b : List Resource) :
    Except (List Char) ResourcesDiff :=
  diffGrouped C (resourcesByGroupVersionKindAndName a).2
    (resourcesByGroupVersionKindAndName b).2

/-! ### Association-list map lemmas -/

theorem setA_nil {β : Type} (k : List Char) (v : β) :
    setA [] k v = [(k, v)] := rfl

theorem setA_cons_eq {β : Type} (k : List Char) (w v : β)
    (rest : List (List Char × β)) :
    setA ((k, w) :: rest) k v = (k, v) :: rest := by
  simp [setA]

theorem setA_cons_ne {β : Type} {k k' : List Char} (h : k ≠ k') (w v : β)
    (rest : List (List Char × β)) :
    setA ((k', w) :: rest) k v = (k', w) :: setA rest k v := by
  simp [setA, h]

theorem mem_setA {β : Type} {l : List (List Char × β)} {k : List Char}
    {v : β} {e : List Char × β} (h : e ∈ setA l k v) :
    e = (k, v) ∨ e ∈ l := by
  induction l with
  | nil => rw [setA_nil] at h; simpa using h
  | cons f rest ih =>
      obtain ⟨k', w⟩ := f
      by_cases hk : k = k'
      · subst hk
        rw [setA_cons_eq] at h
        rcases List.mem_cons.1 h with h | h
        · exact Or.inl h
        · exact Or.inr (List.mem_cons_of_mem _ h)
      · rw [setA_cons_ne hk] at h
        rcases List.mem_cons.1 h with h | h
        · exact Or.inr (by rw [h]; exact List.mem_cons_self _ _)
        · rcases ih h with h' | h'
          · exact Or.inl h'
          · exact Or.inr (List.mem_cons_of_mem _ h')

theorem lookupA_nil {β : Type} (k : List Char) :
    lookupA ([] : List (List Char × β)) k = none := rfl

theorem lookupA_cons_eq {β : Type} (k : List Char) (v : β)
    (rest : List (List Char × β)) :
    lookupA ((k, v) :: rest) k = some v := by
  simp [lookupA]

theorem lookupA_cons_ne {β : Type} {k k' : List Char} (h : k ≠ k') (v : β)
    (rest : List (List Char × β)) :
    lookupA ((k', v) :: rest) k = lookupA rest k := by
  simp [lookupA, h]

theorem lookupA_mem {β : Type} {l : List (List Char × β)} {k : List Char}
    {v : β} (h : lookupA l k = some v) : (k, v) ∈ l := by
  induction l with
  | nil => rw [lookupA_nil] at h; cases h
  | cons e rest ih =>
      obtain ⟨k', w⟩ := e
      by_cases hk : k = k'
      · subst hk
        rw [lookupA_cons_eq] at h
        cases h
        exact List.mem_cons_self _ _
      · rw [lookupA_cons_ne hk] at h
        exact List.mem_cons_of_mem _ (ih h)

theorem mem_keys_setA {β : Type} (l : List (List Char × β)) (k : List Char)
    (v : β) (x : List Char) :
    x ∈ (setA l k v).map Prod.fst ↔ x = k ∨ x ∈ l.map Prod.fst := by
  induction l with
  | nil =>
      rw [setA_nil]
      simp only [List.map_cons, List.map_nil, List.mem_cons,
        List.not_mem_nil, or_false]
  | cons f rest ih =>
      obtain ⟨k', w⟩ := f
      by_cases hk : k = k'
      · subst hk
        rw [setA_cons_eq]
        simp only [List.map_cons, List.mem_cons]
        tauto
      · rw [setA_cons_ne hk]
        simp only [List.map_cons, List.mem_cons, ih]
        tauto

theorem nodup_keys_setA {β : Type} {l : List (List Char × β)}
    (h : (l.map Prod.fst).Nodup) (k : List Char) (v : β) :
    ((setA l k v).map Prod.fst).Nodup := by
  induction l with
  | nil => rw [setA_nil]; simp
  | cons f rest ih =>
      obtain ⟨k', w⟩ := f
      simp only [List.map_cons, List.nodup_cons] at h
      by_cases hk : k = k'
      · subst hk
        rw [setA_cons_eq]
        simp only [List.map_cons, List.nodup_cons]
        exact h
      · rw [setA_cons_ne hk]
        simp only [List.map_cons, List.nodup_cons, mem_keys_setA]
        exact ⟨fun he => he.elim (fun h' => hk h'.symm) h.1, ih h.2⟩

theorem lookupA_isSome_iff {β : Type} (l : List (List Char × β))
    (k : List Char) : (lookupA l k).isSome ↔ k ∈ l.map Prod.fst := by
  induction l with
  | nil => simp [lookupA_nil]
  | cons f rest ih =>
      obtain ⟨k', w⟩ := f
      by_cases hk : k = k'
      · subst hk
        rw [lookupA_cons_eq]
        simp only [Option.isSome_some, List.map_cons, List.mem_cons, true_iff]
        exact Or.inl trivial
      · rw [lookupA_cons_ne hk]
        simp only [List.map_cons, List.mem_cons, ih]
        tauto

theorem lookupA_eq_of_mem_nodup {β : Type} {l : List (List Char × β)}
    {k : List Char} {v : β} (hm : (k, v) ∈ l)
    (hnd : (l.map Prod.fst).Nodup) : lookupA l k = some v := by
  induction l with
  | nil => simp at hm
  | cons f rest ih =>
      obtain ⟨k', w⟩ := f
      simp only [List.map_cons, List.nodup_cons] at hnd
      rcases List.mem_cons.1 hm with h | h
      · obtain ⟨h1, h2⟩ := Prod.mk.injEq .. ▸ h
        subst h1; subst h2
        exact lookupA_cons_eq k v rest
      · by_cases hk : k = k'
        · subst hk
          exact absurd (List.mem_map_of_mem Prod.fst h) hnd.1
        · rw [lookupA_cons_ne hk]
          exact ih h hnd.2

/-! ### Grouping invariants -/

/-- Well-formedness of a grouping produced by the reconciler: outer keys
are pairwise distinct, each inner name map has pairwise-distinct keys, and
every stored document is stored under its own group-version-kind string
and its own (already normalized) name. -/
def GroupWF (g : GroupMap) : Prop :=
  (g.map Prod.fst).Nodup ∧
    ∀ e ∈ g, (e.2.map Prod.fst).Nodup ∧
      ∀ f ∈ e.2, groupVersionKindString f.2 = e.1 ∧ f.2.name = f.1

theorem gvk_normalizeRes (r : Resource) :
    groupVersionKindString (normalizeRes r) = groupVersionKindString r := rfl

theorem groupWF_insert {g : GroupMap} (r : Resource) (h : GroupWF g) :
    GroupWF (groupInsert g r) := by
  obtain ⟨hout, hent⟩ := h
  constructor
  · exact nodup_keys_setA hout _ _
  · intro e he
    rcases mem_setA he with he' | he'
    · subst he'
      constructor
      · cases hl : lookupA g (groupVersionKindString r) with
        | none => simp [hl, setA]
        | some i =>
            simp only [hl, Option.getD_some]
            exact nodup_keys_setA (hent _ (lookupA_mem hl)).1 _ _
      · intro f hf
        rcases mem_setA hf with hf' | hf'
        · subst hf'
          exact ⟨gvk_normalizeRes r, rfl⟩
        · cases hl : lookupA g (groupVersionKindString r) with
          | none => rw [hl] at hf'; simp at hf'
          | some i =>
              rw [hl] at hf'
              simp at hf'
              exact (hent _ (lookupA_mem hl)).2 f hf'
    · exact hent e he'

theorem groupWF_fold (rs : List Resource) :
    ∀ g, GroupWF g → GroupWF (rs.foldl groupInsert g) := by
  induction rs with
  | nil => intro g h; simpa using h
  | cons r rest ih =>
      intro g h
      simpa using ih (groupInsert g r) (groupWF_insert r h)

theorem groupWF_of (rs : List Resource) :
    GroupWF (resourcesByGroupVersionKindAndName rs).2 :=
  groupWF_fold rs [] ⟨by simp, by simp⟩

/-! ### Identity sets -/

/-- The normalized identity of a resource: its group-version-kind string
paired with its name after stripping the synthetic prefix. -/
def identOf (r : Resource) : List Char × List Char :=
  (groupVersionKindString r, normalizeName r.name)

/-- All (kind-string, name) identities present in a grouping, in
presentation order. -/
def groupIdents (g : GroupMap) : List (List Char × List Char) :=
  g.flatMap (fun e => e.2.map (fun f => (e.1, f.1)))

theorem mem_groupIdents (g : GroupMap) (x1 x2 : List Char) :
    (x1, x2) ∈ groupIdents g ↔
      ∃ e ∈ g, x1 = e.1 ∧ x2 ∈ e.2.map Prod.fst := by
  simp only [groupIdents, List.mem_flatMap]
  constructor
  · rintro ⟨e, he, hx⟩
    obtain ⟨f, hf, hfx⟩ := List.mem_map.1 hx
    obtain ⟨h1, h2⟩ := Prod.mk.injEq .. ▸ hfx
    exact ⟨e, he, h1.symm, List.mem_map.2 ⟨f, hf, h2⟩⟩
  · rintro ⟨e, he, h1, h2⟩
    obtain ⟨f, hf, hfx⟩ := List.mem_map.1 h2
    exact ⟨e, he, List.mem_map.2 ⟨f, hf, by rw [h1, hfx]⟩⟩

theorem groupInsert_cons_ne (k₀ : List Char)
    (i₀ : List (List Char × Resource)) (rest : GroupMap) (r : Resource)
    (hk : groupVersionKindString r ≠ k₀) :
    groupInsert ((k₀, i₀) :: rest) r = (k₀, i₀) :: groupInsert rest r := by
  simp [groupInsert, lookupA, setA, hk]

theorem groupInsert_cons_eq (i₀ : List (List Char × Resource))
    (rest : GroupMap) (r : Resource) :
    groupInsert ((groupVersionKindString r, i₀) :: rest) r =
      (groupVersionKindString r,
        setA i₀ (normalizeRes r).name (normalizeRes r)) :: rest := by
  simp [groupInsert, lookupA, setA]

theorem mem_groupIdents_insert (g : GroupMap) (r : Resource)
    (x : List Char × List Char) :
    x ∈ groupIdents (groupInsert g r) ↔ x = identOf r ∨ x ∈ groupIdents g := by
  obtain ⟨x1, x2⟩ := x
  have hid : ((x1, x2) = identOf r) ↔
      (x1 = groupVersionKindString r ∧ x2 = (normalizeRes r).name) := by
    simp [identOf, normalizeRes, Prod.ext_iff]
  induction g with
  | nil =>
      rw [show groupInsert [] r =
          [(groupVersionKindString r, [((normalizeRes r).name, normalizeRes r)])]
        from rfl]
      simp [mem_groupIdents, hid]
  | cons e rest ih =>
      obtain ⟨k₀, i₀⟩ := e
      by_cases hk : groupVersionKindString r = k₀
      · subst hk
        rw [groupInsert_cons_eq]
        simp only [mem_groupIdents, List.mem_cons, hid]
        constructor
        · rintro ⟨e, he, h1, h2⟩
          rcases he with he | he
          · subst he
            simp only at h1 h2
            rw [mem_keys_setA] at h2
            rcases h2 with h2 | h2
            · exact Or.inl ⟨h1, h2⟩
            · exact Or.inr ⟨(_, i₀), Or.inl rfl, h1, h2⟩
          · exact Or.inr ⟨e, Or.inr he, h1, h2⟩
        · rintro (⟨h1, h2⟩ | ⟨e, he, h1, h2⟩)
          · exact ⟨_, Or.inl rfl, h1,
              (mem_keys_setA i₀ (normalizeRes r).name (normalizeRes r) x2).2
                (Or.inl h2)⟩
          · rcases he with he | he
            · subst he
              exact ⟨_, Or.inl rfl, h1,
                (mem_keys_setA i₀ (normalizeRes r).name (normalizeRes r) x2).2
                  (Or.inr h2)⟩
            · exact ⟨e, Or.inr he, h1, h2⟩
      · rw [groupInsert_cons_ne k₀ i₀ rest r hk]
        simp only [mem_groupIdents, List.mem_cons] at ih ⊢
        constructor
        · rintro ⟨e, he, h1, h2⟩
          rcases he with he | he
          · exact Or.inr ⟨e, Or.inl he, h1, h2⟩
          · rcases (ih.1 ⟨e, he, h1, h2⟩) with h | ⟨e', he', h1', h2'⟩
            · exact Or.inl h
            · exact Or.inr ⟨e', Or.inr he', h1', h2'⟩
        · rintro (h | ⟨e, he, h1, h2⟩)
          · obtain ⟨e', he', h1', h2'⟩ := ih.2 (Or.inl h)
            exact ⟨e', Or.inr he', h1', h2'⟩
          · rcases he with he | he
            · exact ⟨e, Or.inl he, h1, h2⟩
            · obtain ⟨e', he', h1', h2'⟩ := ih.2 (Or.inr ⟨e, he, h1, h2⟩)
              exact ⟨e', Or.inr he', h1', h2'⟩

theorem mem_groupIdents_fold (rs : List Resource) :
    ∀ (g : GroupMap) (x : List Char × List Char),
      x ∈ groupIdents (rs.foldl groupInsert g) ↔
        x ∈ groupIdents g ∨ ∃ r ∈ rs, x = identOf r := by
  induction rs with
  | nil => intro g x; simp
  | cons r rest ih =>
      intro g x
      simp only [List.foldl_cons]
      rw [ih (groupInsert g r) x, mem_groupIdents_insert]
      simp only [List.mem_cons]
      constructor
      · rintro ((h | h) | ⟨r', hr', hx⟩)
        · exact Or.inr ⟨r, Or.inl rfl, h⟩
        · exact Or.inl h
        · exact Or.inr ⟨r', Or.inr hr', hx⟩
      · rintro (h | ⟨r', hr' | hr', hx⟩)
        · exact Or.inl (Or.inr h)
        · subst hr'; exact Or.inl (Or.inl hx)
        · exact Or.inr ⟨r', hr', hx⟩

theorem fst_mem_of_mem_groupIdents {g : GroupMap}
    {x : List Char × List Char} (h : x ∈ groupIdents g) :
    x.1 ∈ g.map Prod.fst := by
  obtain ⟨x1, x2⟩ := x
  obtain ⟨e, he, h1, _⟩ := (mem_groupIdents g x1 x2).1 h
  rw [h1]
  exact List.mem_map_of_mem Prod.fst he

theorem GroupWF.tail {e : List Char × List (List Char × Resource)}
    {rest : GroupMap} (h : GroupWF (e :: rest)) : GroupWF rest := by
  obtain ⟨hout, hent⟩ := h
  simp only [List.map_cons, List.nodup_cons] at hout
  exact ⟨hout.2, fun f hf => hent f (List.mem_cons_of_mem e hf)⟩

theorem groupIdents_cons (e : List Char × List (List Char × Resource))
    (rest : GroupMap) :
    groupIdents (e :: rest) =
      e.2.map (fun f => (e.1, f.1)) ++ groupIdents rest := by
  simp [groupIdents]

theorem groupIdents_nodup {g : GroupMap} (h : GroupWF g) :
    (groupIdents g).Nodup := by
  induction g with
  | nil => simp [groupIdents]
  | cons e rest ih =>
      obtain ⟨k, i⟩ := e
      have hkeys : k ∉ rest.map Prod.fst ∧ (rest.map Prod.fst).Nodup := by
        have := h.1
        simpa using this
      have hinner : (i.map Prod.fst).Nodup :=
        (h.2 (k, i) (List.mem_cons_self _ _)).1
      rw [groupIdents_cons]
      refine List.Nodup.append ?_ (ih h.tail) ?_
      · have : (i.map (fun f => ((k, f.1) : List Char × List Char))) =
            (i.map Prod.fst).map (fun n => (k, n)) := by
          simp [List.map_map]
        rw [this]
        exact hinner.map (fun a b hab => by simpa using hab)
      · intro x hx1 hx2
        obtain ⟨f, _, hfx⟩ := List.mem_map.1 hx1
        have : x.1 = k := by rw [hfx.symm]
        exact hkeys.1 (this ▸ fst_mem_of_mem_groupIdents hx2)

theorem mem_groupIdents_lookup {g : GroupMap} (h : GroupWF g)
    (x1 x2 : List Char) :
    (x1, x2) ∈ groupIdents g ↔
      ∃ i, lookupA g x1 = some i ∧ (lookupA i x2).isSome := by
  constructor
  · intro hm
    obtain ⟨e, he, h1, h2⟩ := (mem_groupIdents g x1 x2).1 hm
    obtain ⟨k, i⟩ := e
    simp only at h1 h2
    subst h1
    exact ⟨i, lookupA_eq_of_mem_nodup he h.1, (lookupA_isSome_iff i x2).2 h2⟩
  · rintro ⟨i, hl, hs⟩
    exact (mem_groupIdents g x1 x2).2
      ⟨(x1, i), lookupA_mem hl, rfl, (lookupA_isSome_iff i x2).1 hs⟩

/-! ### Characterization of the classification loops -/

/-- Whether the comparisons for one name entry of A succeed (used to state
when the reconciliation runs to completion). -/
def innerOk (C : Cmp) (bInner : List (List Char × Resource))
    (f : List Char × Resource) : Bool :=
  match lookupA bInner f.1 with
  | none => true
  | some rb => (C f.2 rb).isOk

/-- The removals contributed by one kind's inner map when the kind exists
in both sets: the names absent from B's inner map. -/
def innerRem (bInner inner : List (List Char × Resource)) : List Resource :=
  (inner.filter (fun f => (lookupA bInner f.1).isNone)).map Prod.snd

/-- The changed entries contributed by one kind's inner map. -/
def innerChg (C : Cmp) (kind : List Char)
    (bInner inner : List (List Char × Resource)) : List ChangedEntry :=
  inner.filterMap (fun f =>
    match lookupA bInner f.1 with
    | none => none
    | some rb =>
        match C f.2 rb with
        | .error _ => none
        | .ok rep => if rep = [] then none else some (kind, f.1, rep))

/-- The unchanged resources contributed by one kind's inner map. -/
def innerUnch (C : Cmp) (bInner inner : List (List Char × Resource)) :
    List Resource :=
  inner.filterMap (fun f =>
    match lookupA bInner f.1 with
    | none => none
    | some rb =>
        match C f.2 rb with
        | .error _ => none
        | .ok rep => if rep = [] then some f.2 else none)

theorem diffNames_isOk (C : Cmp) (kind : List Char)
    (bInner : List (List Char × Resource)) :
    ∀ inner, (diffNames C kind bInner inner).isOk = inner.all (innerOk C bInner) := by
  intro inner
  induction inner with
  | nil => simp [diffNames, Except.isOk, Except.toBool]
  | cons f rest ih =>
      obtain ⟨n, r⟩ := f
      simp only [diffNames, List.all_cons]
      cases hl : lookupA bInner n with
      | none =>
          cases hrec : diffNames C kind bInner rest with
          | error e =>
              simp only [innerOk, hl, ← hrec ▸ ih]
              simp [Except.isOk, Except.toBool, hrec]
          | ok t =>
              obtain ⟨rem, chg, unch⟩ := t
              simp only [innerOk, hl, ← hrec ▸ ih]
              simp [Except.isOk, Except.toBool, hrec]
      | some rb =>
          cases hc : C r rb with
          | error e => simp [innerOk, hl, hc, Except.isOk, Except.toBool]
          | ok rep =>
              cases hrec : diffNames C kind bInner rest with
              | error e =>
                  simp only [innerOk, hl, hc]
                  simp [Except.isOk, Except.toBool, hrec, ← ih]
              | ok t =>
                  obtain ⟨rem, chg, unch⟩ := t
                  by_cases hrep : rep = [] <;>
                  · simp only [innerOk, hl, hc, hrep]
                    simp [Except.isOk, Except.toBool, hrec, ← ih, hrep]

theorem diffNames_ok_eq (C : Cmp) (kind : List Char)
    (bInner : List (List Char × Resource)) :
    ∀ inner rem chg unch,
      diffNames C kind bInner inner = .ok (rem, chg, unch) →
        rem = innerRem bInner inner ∧ chg = innerChg C kind bInner inner ∧
          unch = innerUnch C bInner inner := by
  intro inner
  induction inner with
  | nil =>
      intro rem chg unch h
      simp only [diffNames, Except.ok.injEq, Prod.mk.injEq] at h
      obtain ⟨h1, h2, h3⟩ := h
      subst h1; subst h2; subst h3
      simp [innerRem, innerChg, innerUnch]
  | cons f rest ih =>
      intro rem chg unch h
      obtain ⟨n, r⟩ := f
      simp only [diffNames] at h
      cases hl : lookupA bInner n with
      | none =>
          simp only [hl] at h
          cases hrec : diffNames C kind bInner rest with
          | error e => simp only [hrec] at h; simp at h
          | ok t =>
              obtain ⟨rem', chg', unch'⟩ := t
              simp only [hrec, Except.ok.injEq, Prod.mk.injEq] at h
              obtain ⟨h1, h2, h3⟩ := h
              obtain ⟨hr, hc, hu⟩ := ih rem' chg' unch' hrec
              subst h1; subst h2; subst h3
              simp [innerRem, innerChg, innerUnch, hl, hr, hc, hu,
                List.filter_cons, List.filterMap_cons]
      | some rb =>
          simp only [hl] at h
          cases hc : C r rb with
          | error e => simp only [hc] at h; simp at h
          | ok rep =>
              simp only [hc] at h
              cases hrec : diffNames C kind bInner rest with
              | error e => simp only [hrec] at h; simp at h
              | ok t =>
                  obtain ⟨rem', chg', unch'⟩ := t
                  simp only [hrec] at h
                  obtain ⟨hr, hcg, hu⟩ := ih rem' chg' unch' hrec
                  by_cases hrep : rep = []
                  · rw [if_pos hrep] at h
                    simp only [Except.ok.injEq, Prod.mk.injEq] at h
                    obtain ⟨h1, h2, h3⟩ := h
                    subst h1; subst h2; subst h3
                    simp [innerRem, innerChg, innerUnch, hl, hc, hrep, hr,
                      hcg, hu, List.filter_cons, List.filterMap_cons]
                  · rw [if_neg hrep] at h
                    simp only [Except.ok.injEq, Prod.mk.injEq] at h
                    obtain ⟨h1, h2, h3⟩ := h
                    subst h1; subst h2; subst h3
                    simp [innerRem, innerChg, innerUnch, hl, hc, hrep, hr,
                      hcg, hu, List.filter_cons, List.filterMap_cons]

/-- Whether all comparisons for one kind entry of A's grouping succeed. -/
def entryOk (C : Cmp) (bG : GroupMap)
    (e : List Char × List (List Char × Resource)) : Bool :=
  match lookupA bG e.1 with
  | none => true
  | some bInner => e.2.all (innerOk C bInner)

/-- The removals contributed to the first loop by one kind entry of A. -/
def kindRem (bG : GroupMap)
    (e : List Char × List (List Char × Resource)) : List Resource :=
  match lookupA bG e.1 with
  | none => e.2.map Prod.snd
  | some bInner => innerRem bInner e.2

/-- The changed entries contributed by one kind entry of A. -/
def kindChg (C : Cmp) (bG : GroupMap)
    (e : List Char × List (List Char × Resource)) : List ChangedEntry :=
  match lookupA bG e.1 with
  | none => []
  | some bInner => innerChg C e.1 bInner e.2

/-- The unchanged resources contributed by one kind entry of A. -/
def kindUnch (C : Cmp) (bG : GroupMap)
    (e : List Char × List (List Char × Resource)) : List Resource :=
  match lookupA bG e.1 with
  | none => []
  | some bInner => innerUnch C bInner e.2

theorem diffKinds_isOk (C : Cmp) (bG : GroupMap) :
    ∀ gA, (diffKinds C bG gA).isOk = gA.all (entryOk C bG) := by
  intro gA
  induction gA with
  | nil => simp [diffKinds, Except.isOk, Except.toBool]
  | cons e rest ih =>
      obtain ⟨k, inner⟩ := e
      simp only [diffKinds, List.all_cons]
      cases hl : lookupA bG k with
      | none =>
          cases hrec : diffKinds C bG rest with
          | error e =>
              simp only [entryOk, hl]
              simp [Except.isOk, Except.toBool, hrec, ← ih]
          | ok t =>
              obtain ⟨rem, chg, unch⟩ := t
              simp only [entryOk, hl]
              simp [Except.isOk, Except.toBool, hrec, ← ih]
      | some bInner =>
          cases hn : diffNames C k bInner inner with
          | error e =>
              simp only [entryOk, hl]
              have := diffNames_isOk C k bInner inner
              rw [hn] at this
              simp [Except.isOk, Except.toBool, hn, ← this]
          | ok t =>
              obtain ⟨rem1, chg1, unch1⟩ := t
              cases hrec : diffKinds C bG rest with
              | error e =>
                  simp only [entryOk, hl]
                  have := diffNames_isOk C k bInner inner
                  rw [hn] at this
                  simp [Except.isOk, Except.toBool, hn, hrec, ← ih, ← this]
              | ok t' =>
                  obtain ⟨rem, chg, unch⟩ := t'
                  simp only [entryOk, hl]
                  have := diffNames_isOk C k bInner inner
                  rw [hn] at this
                  simp [Except.isOk, Except.toBool, hn, hrec, ← ih, ← this]

theorem diffKinds_ok_eq (C : Cmp) (bG : GroupMap) :
    ∀ gA rem chg unch,
      diffKinds C bG gA = .ok (rem, chg, unch) →
        rem = gA.flatMap (kindRem bG) ∧ chg = gA.flatMap (kindChg C bG) ∧
          unch = gA.flatMap (kindUnch C bG) := by
  intro gA
  induction gA with
  | nil =>
      intro rem chg unch h
      simp only [diffKinds, Except.ok.injEq, Prod.mk.injEq] at h
      obtain ⟨h1, h2, h3⟩ := h
      subst h1; subst h2; subst h3
      simp
  | cons e rest ih =>
      intro rem chg unch h
      obtain ⟨k, inner⟩ := e
      simp only [diffKinds] at h
      cases hl : lookupA bG k with
      | none =>
          simp only [hl] at h
          cases hrec : diffKinds C bG rest with
          | error e => simp only [hrec] at h; simp at h
          | ok t =>
              obtain ⟨rem', chg', unch'⟩ := t
              simp only [hrec, Except.ok.injEq, Prod.mk.injEq] at h
              obtain ⟨h1, h2, h3⟩ := h
              obtain ⟨hr, hc, hu⟩ := ih rem' chg' unch' hrec
              subst h1; subst h2; subst h3
              simp [kindRem, kindChg, kindUnch, hl, hr, hc, hu]
      | some bInner =>
          simp only [hl] at h
          cases hn : diffNames C k bInner inner with
          | error e => simp only [hn] at h; simp at h
          | ok t =>
              obtain ⟨rem1, chg1, unch1⟩ := t
              simp only [hn] at h
              cases hrec : diffKinds C bG rest with
              | error e => simp only [hrec] at h; simp at h
              | ok t' =>
                  obtain ⟨rem', chg', unch'⟩ := t'
                  simp only [hrec, Except.ok.injEq, Prod.mk.injEq] at h
                  obtain ⟨h1, h2, h3⟩ := h
                  obtain ⟨hr, hc, hu⟩ := ih rem' chg' unch' hrec
                  obtain ⟨hr1, hc1, hu1⟩ := diffNames_ok_eq C k bInner inner
                    rem1 chg1 unch1 hn
                  subst h1; subst h2; subst h3
                  simp [kindRem, kindChg, kindUnch, hl, hr, hc, hu, hr1,
                    hc1, hu1]

/-- The removals contributed to the second loop by one kind entry of B:
the faithful model of the source's bug — a kind absent from A sends B's
resources of that kind into removals. -/
def passRem (aG : GroupMap)
    (e : List Char × List (List Char × Resource)) : List Resource :=
  match lookupA aG e.1 with
  | none => e.2.map Prod.snd
  | some _ => []

/-- The additions contributed by one kind entry of B: only names missing
within a kind that both groupings share. -/
def passAdd (aG : GroupMap)
    (e : List Char × List (List Char × Resource)) : List Resource :=
  match lookupA aG e.1 with
  | none => []
  | some aInner =>
      (e.2.filter (fun f => (lookupA aInner f.1).isNone)).map Prod.snd

theorem secondPass_eq (aG : GroupMap) :
    ∀ gB, secondPass aG gB =
      (gB.flatMap (passRem aG), gB.flatMap (passAdd aG)) := by
  intro gB
  induction gB with
  | nil => simp [secondPass]
  | cons e rest ih =>
      obtain ⟨k, inner⟩ := e
      simp only [secondPass, ih]
      cases hl : lookupA aG k with
      | none => simp [passRem, passAdd, hl]
      | some aInner => simp [passRem, passAdd, hl]

theorem diffGrouped_isOk (C : Cmp) (aG bG : GroupMap) :
    (diffGrouped C aG bG).isOk = aG.all (entryOk C bG) := by
  rw [← diffKinds_isOk C bG aG]
  simp only [diffGrouped]
  cases h : diffKinds C bG aG with
  | error e => simp [Except.isOk, Except.toBool]
  | ok t =>
      obtain ⟨rem1, chg, unch⟩ := t
      simp [Except.isOk, Except.toBool]

theorem diffGrouped_ok_eq (C : Cmp) (aG bG : GroupMap) (d : ResourcesDiff)
    (h : diffGrouped C aG bG = .ok d) :
    d.Removed = aG.flatMap (kindRem bG) ++ bG.flatMap (passRem aG) ∧
      d.Added = bG.flatMap (passAdd aG) ∧
      d.Changed = aG.flatMap (kindChg C bG) ∧
      d.Unchanged = aG.flatMap (kindUnch C bG) := by
  simp only [diffGrouped] at h
  cases hk : diffKinds C bG aG with
  | error e => simp only [hk] at h; simp at h
  | ok t =>
      obtain ⟨rem1, chg, unch⟩ := t
      simp only [hk, secondPass_eq, Except.ok.injEq] at h
      obtain ⟨hr, hc, hu⟩ := diffKinds_ok_eq C bG aG rem1 chg unch hk
      subst h
      exact ⟨by simp [hr], by simp, by simp [hc], by simp [hu]⟩

/-! ### The partition invariant -/

/-- The identity of a document already stored in a grouping (its name has
already been normalized). -/
def identOfStored (r : Resource) : List Char × List Char :=
  (groupVersionKindString r, r.name)

/-- The identity recorded by a changed-map entry. -/
def changedKey (c : ChangedEntry) : List Char × List Char := (c.1, c.2.1)

/-- Whether an identity of B's grouping is absent from A's grouping
(kind missing entirely, or name missing within a shared kind). -/
def bOnly (aG : GroupMap) (x : List Char × List Char) : Bool :=
  match lookupA aG x.1 with
  | none => true
  | some aInner => (lookupA aInner x.2).isNone

theorem inner_idents_split (C : Cmp) (k : List Char)
    (bInner : List (List Char × Resource)) :
    ∀ inner : List (List Char × Resource),
      (∀ f ∈ inner, identOfStored f.2 = (k, f.1)) →
      (∀ f ∈ inner, innerOk C bInner f = true) →
      (↑((innerRem bInner inner).map identOfStored) : Multiset (List Char × List Char))
          + ↑((innerChg C k bInner inner).map changedKey)
          + ↑((innerUnch C bInner inner).map identOfStored)
        = ↑(inner.map (fun f => (k, f.1))) := by
  intro inner
  induction inner with
  | nil => intro _ _; simp [innerRem, innerChg, innerUnch]
  | cons f rest ih =>
      intro hprops hok
      obtain ⟨n, r⟩ := f
      have hid : identOfStored r = (k, n) := hprops (n, r) (List.mem_cons_self _ _)
      have hprops' : ∀ f ∈ rest, identOfStored f.2 = (k, f.1) :=
        fun f hf => hprops f (List.mem_cons_of_mem _ hf)
      have hok' : ∀ f ∈ rest, innerOk C bInner f = true :=
        fun f hf => hok f (List.mem_cons_of_mem _ hf)
      have hrec := ih hprops' hok'
      have hokf := hok (n, r) (List.mem_cons_self _ _)
      cases hl : lookupA bInner n with
      | none =>
          have e1 : innerRem bInner ((n, r) :: rest) = r :: innerRem bInner rest := by
            simp [innerRem, List.filter_cons, hl]
          have e2 : innerChg C k bInner ((n, r) :: rest) = innerChg C k bInner rest := by
            simp [innerChg, List.filterMap_cons, hl]
          have e3 : innerUnch C bInner ((n, r) :: rest) = innerUnch C bInner rest := by
            simp [innerUnch, List.filterMap_cons, hl]
          rw [e1, e2, e3, List.map_cons, hid, List.map_cons,
            ← Multiset.cons_coe, ← Multiset.cons_coe, Multiset.cons_add,
            Multiset.cons_add]
          exact congrArg _ hrec
      | some rb =>
          simp only [innerOk, hl] at hokf
          cases hc : C r rb with
          | error e => rw [hc] at hokf; simp [Except.isOk, Except.toBool] at hokf
          | ok rep =>
              have e1 : innerRem bInner ((n, r) :: rest) = innerRem bInner rest := by
                simp [innerRem, List.filter_cons, hl]
              by_cases hrep : rep = []
              · have e2 : innerChg C k bInner ((n, r) :: rest) =
                    innerChg C k bInner rest := by
                  simp [innerChg, List.filterMap_cons, hl, hc, hrep]
                have e3 : innerUnch C bInner ((n, r) :: rest) =
                    r :: innerUnch C bInner rest := by
                  simp [innerUnch, List.filterMap_cons, hl, hc, hrep]
                rw [e1, e2, e3, List.map_cons, hid, List.map_cons,
                  ← Multiset.cons_coe, ← Multiset.cons_coe, Multiset.add_cons]
                exact congrArg _ hrec
              · have e2 : innerChg C k bInner ((n, r) :: rest) =
                    (k, n, rep) :: innerChg C k bInner rest := by
                  simp [innerChg, List.filterMap_cons, hl, hc, hrep]
                have e3 : innerUnch C bInner ((n, r) :: rest) =
                    innerUnch C bInner rest := by
                  simp [innerUnch, List.filterMap_cons, hl, hc, hrep]
                have hck : changedKey (k, n, rep) = (k, n) := rfl
                rw [e1, e2, e3, List.map_cons, hck, List.map_cons,
                  ← Multiset.cons_coe, ← Multiset.cons_coe,
                  Multiset.add_cons, Multiset.cons_add]
                exact congrArg _ hrec

theorem kind_idents_split (C : Cmp) (bG : GroupMap)
    (e : List Char × List (List Char × Resource))
    (hprops : ∀ f ∈ e.2, identOfStored f.2 = (e.1, f.1))
    (hok : entryOk C bG e = true) :
    (↑((kindRem bG e).map identOfStored) : Multiset (List Char × List Char))
        + ↑((kindChg C bG e).map changedKey)
        + ↑((kindUnch C bG e).map identOfStored)
      = ↑(e.2.map (fun f => (e.1, f.1))) := by
  obtain ⟨k, inner⟩ := e
  cases hl : lookupA bG k with
  | none =>
      simp only [kindRem, kindChg, kindUnch, hl, List.map_nil, List.map_map]
      have hm : List.map (identOfStored ∘ Prod.snd) inner =
          inner.map (fun f => ((k, f.1) : List Char × List Char)) :=
        List.map_congr_left (fun f hf => hprops f hf)
      rw [hm]
      simp
  | some bInner =>
      simp only [entryOk, hl, List.all_eq_true] at hok
      simp only [kindRem, kindChg, kindUnch, hl]
      exact inner_idents_split C k bInner inner hprops hok

theorem diffA_idents (C : Cmp) (bG : GroupMap) :
    ∀ gA : GroupMap,
      (∀ e ∈ gA, ∀ f ∈ e.2, identOfStored f.2 = (e.1, f.1)) →
      (∀ e ∈ gA, entryOk C bG e = true) →
      (↑((gA.flatMap (kindRem bG)).map identOfStored) : Multiset (List Char × List Char))
          + ↑((gA.flatMap (kindChg C bG)).map changedKey)
          + ↑((gA.flatMap (kindUnch C bG)).map identOfStored)
        = ↑(groupIdents gA) := by
  intro gA
  induction gA with
  | nil => intro _ _; simp [groupIdents]
  | cons e rest ih =>
      intro hprops hok
      have h1 := kind_idents_split C bG e (hprops e (List.mem_cons_self _ _))
        (hok e (List.mem_cons_self _ _))
      have h2 := ih (fun e' he' => hprops e' (List.mem_cons_of_mem _ he'))
        (fun e' he' => hok e' (List.mem_cons_of_mem _ he'))
      rw [groupIdents_cons]
      simp only [List.flatMap_cons, List.map_append]
      rw [← Multiset.coe_add, ← Multiset.coe_add, ← Multiset.coe_add,
        ← Multiset.coe_add, ← h1, ← h2]
      abel

theorem pass_idents_split (aG : GroupMap)
    (e : List Char × List (List Char × Resource))
    (hprops : ∀ f ∈ e.2, identOfStored f.2 = (e.1, f.1)) :
    (↑((passRem aG e).map identOfStored) : Multiset (List Char × List Char))
        + ↑((passAdd aG e).map identOfStored)
      = ↑((e.2.map (fun f => (e.1, f.1))).filter (bOnly aG)) := by
  obtain ⟨k, inner⟩ := e
  cases hl : lookupA aG k with
  | none =>
      simp only [passRem, passAdd, hl, List.map_nil, List.map_map]
      have hm : List.map (identOfStored ∘ Prod.snd) inner =
          inner.map (fun f => ((k, f.1) : List Char × List Char)) :=
        List.map_congr_left (fun f hf => hprops f hf)
      rw [hm]
      rw [List.filter_eq_self.2 ?_]
      · simp
      · intro x hx
        obtain ⟨f, _, hfx⟩ := List.mem_map.1 hx
        rw [← hfx]
        simp [bOnly, hl]
  | some aInner =>
      simp only [passRem, passAdd, hl, List.map_nil, List.map_map]
      have hm : List.map (identOfStored ∘ Prod.snd)
          (inner.filter (fun f => (lookupA aInner f.1).isNone)) =
          (inner.filter (fun f => (lookupA aInner f.1).isNone)).map
            (fun f => ((k, f.1) : List Char × List Char)) :=
        List.map_congr_left (fun f hf => hprops f (List.mem_of_mem_filter hf))
      rw [hm]
      have hcomm : (inner.map (fun f => ((k, f.1) : List Char × List Char))).filter
          (bOnly aG) =
          (inner.filter (fun f => (lookupA aInner f.1).isNone)).map
            (fun f => (k, f.1)) := by
        rw [List.filter_map]
        congr 1
        apply List.filter_congr
        intro f _
        simp [bOnly, Function.comp, hl]
      rw [hcomm]
      simp

theorem diffB_idents (aG : GroupMap) :
    ∀ gB : GroupMap,
      (∀ e ∈ gB, ∀ f ∈ e.2, identOfStored f.2 = (e.1, f.1)) →
      (↑((gB.flatMap (passRem aG)).map identOfStored) : Multiset (List Char × List Char))
          + ↑((gB.flatMap (passAdd aG)).map identOfStored)
        = ↑((groupIdents gB).filter (bOnly aG)) := by
  intro gB
  induction gB with
  | nil => intro _; simp [groupIdents]
  | cons e rest ih =>
      intro hprops
      have h1 := pass_idents_split aG e (hprops e (List.mem_cons_self _ _))
      have h2 := ih (fun e' he' => hprops e' (List.mem_cons_of_mem _ he'))
      rw [groupIdents_cons, List.filter_append]
      simp only [List.flatMap_cons, List.map_append]
      rw [← Multiset.coe_add, ← Multiset.coe_add, ← Multiset.coe_add,
        ← h1, ← h2]
      abel

theorem mem_groupIdents_of_lookup {g : GroupMap} {x1 x2 : List Char}
    {i : List (List Char × Resource)} (hl : lookupA g x1 = some i)
    (hs : (lookupA i x2).isSome) : (x1, x2) ∈ groupIdents g :=
  (mem_groupIdents g x1 x2).2
    ⟨(x1, i), lookupA_mem hl, rfl, (lookupA_isSome_iff i x2).1 hs⟩

theorem bOnly_false_of_memA {gA : GroupMap} (hWF : GroupWF gA)
    {x : List Char × List Char} (hx : x ∈ groupIdents gA) :
    bOnly gA x = false := by
  obtain ⟨x1, x2⟩ := x
  obtain ⟨i, hl, hs⟩ := (mem_groupIdents_lookup hWF x1 x2).1 hx
  cases hli : lookupA i x2 with
  | none => rw [hli] at hs; simp at hs
  | some v => simp [bOnly, hl, hli]

theorem memA_of_bOnly_false {gA : GroupMap} {x : List Char × List Char}
    (hb : bOnly gA x = false) : x ∈ groupIdents gA := by
  obtain ⟨x1, x2⟩ := x
  cases hla : lookupA gA x1 with
  | none => simp [bOnly, hla] at hb
  | some aInner =>
      simp only [bOnly, hla, Option.isNone_eq_false_iff] at hb
      exact mem_groupIdents_of_lookup hla hb

/-- The identity list obtained by grouping equals the normalized identity
set of the input resources. -/
theorem groupIdents_toFinset_eq (rs : List Resource) :
    (groupIdents (resourcesByGroupVersionKindAndName rs).2).toFinset =
      (rs.map identOf).toFinset := by
  ext x
  simp only [List.mem_toFinset, List.mem_map]
  rw [show (resourcesByGroupVersionKindAndName rs).2 = rs.foldl groupInsert []
    from rfl, mem_groupIdents_fold rs [] x]
  simp only [groupIdents, List.flatMap_nil, List.not_mem_nil, false_or]
  constructor
  · rintro ⟨r, hr, hx⟩; exact ⟨r, hr, hx.symm⟩
  · rintro ⟨r, hr, hx⟩; exact ⟨r, hr, hx.symm⟩

theorem toFinset_disjoint_of_list_disjoint
    {l1 l2 : List (List Char × List Char)} (h : l1.Disjoint l2) :
    Disjoint l1.toFinset l2.toFinset := by
  rw [Finset.disjoint_left]
  intro x hx1 hx2
  exact h (List.mem_toFinset.1 hx1) (List.mem_toFinset.1 hx2)

/-- The normalized identity set of a list of input resources. -/
def identsIn (rs : List Resource) : Finset (List Char × List Char) :=
  (rs.map identOf).toFinset

def addedIdents (d : ResourcesDiff) : Finset (List Char × List Char) :=
  (d.Added.map identOfStored).toFinset

def removedIdents (d : ResourcesDiff) : Finset (List Char × List Char) :=
  (d.Removed.map identOfStored).toFinset

def changedIdents (d : ResourcesDiff) : Finset (List Char × List Char) :=
  (d.Changed.map changedKey).toFinset

def unchangedIdents (d : ResourcesDiff) : Finset (List Char × List Char) :=
  (d.Unchanged.map identOfStored).toFinset

/-- C2: for every pair of input resource sets and every comparator, when
`DiffResources` returns a result, the identities of the four buckets are
pairwise disjoint and their union is the set of normalized identities
occurring in either input: every identity present in either input set
appears in exactly one bucket. -/
theorem c2_partition_invariant (C : Cmp) (a b : List Resource)
    (d : ResourcesDiff) (h : DiffResources C a b = .ok d) :
    (addedIdents d ∪ removedIdents d ∪ changedIdents d ∪ unchangedIdents d
        = identsIn a ∪ identsIn b) ∧
      Disjoint (addedIdents d) (removedIdents d) ∧
      Disjoint (addedIdents d) (changedIdents d) ∧
      Disjoint (addedIdents d) (unchangedIdents d) ∧
      Disjoint (removedIdents d) (changedIdents d) ∧
      Disjoint (removedIdents d) (unchangedIdents d) ∧
      Disjoint (changedIdents d) (unchangedIdents d) := by
  have hWFa := groupWF_of a
  have hWFb := groupWF_of b
  set gA := (resourcesByGroupVersionKindAndName a).2 with hgA
  set gB := (resourcesByGroupVersionKindAndName b).2 with hgB
  have hgr : diffGrouped C gA gB = .ok d := h
  have hOkAll : ∀ e ∈ gA, entryOk C gB e = true := by
    have := diffGrouped_isOk C gA gB
    rw [hgr] at this
    exact List.all_eq_true.1 (by
      rw [← this]; simp [Except.isOk, Except.toBool])
  have hpropsA : ∀ e ∈ gA, ∀ f ∈ e.2, identOfStored f.2 = (e.1, f.1) := by
    intro e he f hf
    obtain ⟨h1, h2⟩ := (hWFa.2 e he).2 f hf
    simp [identOfStored, h1, h2]
  have hpropsB : ∀ e ∈ gB, ∀ f ∈ e.2, identOfStored f.2 = (e.1, f.1) := by
    intro e he f hf
    obtain ⟨h1, h2⟩ := (hWFb.2 e he).2 f hf
    simp [identOfStored, h1, h2]
  obtain ⟨hRem, hAdd, hChg, hUnch⟩ := diffGrouped_ok_eq C gA gB d hgr
  have hA := diffA_idents C gB gA hpropsA hOkAll
  have hB := diffB_idents gA gB hpropsB
  -- the combined bucket identity list and its right-hand presentation
  set L : List (List Char × List Char) :=
    d.Added.map identOfStored ++ d.Removed.map identOfStored ++
      d.Changed.map changedKey ++ d.Unchanged.map identOfStored with hL
  set R : List (List Char × List Char) :=
    groupIdents gA ++ (groupIdents gB).filter (bOnly gA) with hR
  have hM : (↑L : Multiset (List Char × List Char)) = ↑R := by
    rw [hL, hR, hRem, hAdd, hChg, hUnch]
    simp only [List.map_append]
    rw [← Multiset.coe_add, ← Multiset.coe_add, ← Multiset.coe_add,
      ← Multiset.coe_add, ← Multiset.coe_add, ← hA, ← hB]
    abel
  have hperm : L.Perm R := Multiset.coe_eq_coe.1 hM
  have hRnodup : R.Nodup := by
    rw [hR]
    refine List.Nodup.append (groupIdents_nodup hWFa)
      ((groupIdents_nodup hWFb).filter _) ?_
    intro x hx1 hx2
    have hb := bOnly_false_of_memA hWFa hx1
    have := List.of_mem_filter hx2
    rw [hb] at this
    cases this
  have hLnodup : L.Nodup := hperm.nodup_iff.2 hRnodup
  have hRfin : R.toFinset = identsIn a ∪ identsIn b := by
    rw [hR]
    ext x
    simp only [List.toFinset_append, Finset.mem_union, List.mem_toFinset,
      List.mem_filter, identsIn]
    constructor
    · rintro (hx | ⟨hx, _⟩)
      · exact Or.inl (by
          have := List.mem_toFinset.2 hx
          rw [groupIdents_toFinset_eq a] at this
          exact List.mem_toFinset.1 this)
      · exact Or.inr (by
          have := List.mem_toFinset.2 hx
          rw [groupIdents_toFinset_eq b] at this
          exact List.mem_toFinset.1 this)
    · rintro (hx | hx)
      · exact Or.inl (by
          have := List.mem_toFinset.2 hx
          rw [← groupIdents_toFinset_eq a] at this
          exact List.mem_toFinset.1 this)
      · have hxB : x ∈ groupIdents gB := by
          have := List.mem_toFinset.2 hx
          rw [← groupIdents_toFinset_eq b] at this
          exact List.mem_toFinset.1 this
        by_cases hb : bOnly gA x = true
        · exact Or.inr ⟨hxB, hb⟩
        · exact Or.inl (memA_of_bOnly_false (Bool.not_eq_true _ ▸ hb))
  have hLfin : L.toFinset =
      addedIdents d ∪ removedIdents d ∪ changedIdents d ∪ unchangedIdents d := by
    rw [hL]
    simp [List.toFinset_append, addedIdents, removedIdents, changedIdents,
      unchangedIdents, Finset.union_assoc]
  -- pairwise disjointness of the four identity lists from Nodup of L
  have hnd := hLnodup
  rw [hL, List.append_assoc, List.append_assoc] at hnd
  rw [List.nodup_append] at hnd
  obtain ⟨_, hnd2, hdisj1⟩ := hnd
  rw [List.nodup_append] at hnd2
  obtain ⟨_, hnd3, hdisj2⟩ := hnd2
  rw [List.nodup_append] at hnd3
  obtain ⟨_, _, hdisj3⟩ := hnd3
  rw [List.disjoint_append_right] at hdisj1
  obtain ⟨hd12, hdisj1'⟩ := hdisj1
  rw [List.disjoint_append_right] at hdisj1'
  obtain ⟨hd13, hd14⟩ := hdisj1'
  rw [List.disjoint_append_right] at hdisj2
  obtain ⟨hd23, hd24⟩ := hdisj2
  refine ⟨?_, toFinset_disjoint_of_list_disjoint hd12,
    toFinset_disjoint_of_list_disjoint hd13,
    toFinset_disjoint_of_list_disjoint hd14,
    toFinset_disjoint_of_list_disjoint hd23,
    toFinset_disjoint_of_list_disjoint hd24,
    toFinset_disjoint_of_list_disjoint hdisj3⟩
  rw [← hLfin, List.toFinset_eq_of_perm _ _ hperm, hRfin]

/-! ### Concrete inputs and the claims settled by evaluation -/

/-- A comparator that always succeeds with an empty report (two documents
that dyff finds identical). -/
def cmpEmptyOk : Cmp := fun _ _ => .ok []

def rBaz : Resource :=
  { group := "rbac.authorization.k8s.io".toList, version := "v1".toList,
    kind := "ClusterRole".toList, name := "baz".toList,
    body := .scalar .sNull }

def rKA : Resource :=
  { group := [], version := "v1".toList, kind := "KindA".toList,
    name := "one".toList, body := .scalar .sNull }

def rKB : Resource :=
  { group := [], version := "v1".toList, kind := "KindB".toList,
    name := "two".toList, body := .scalar .sNull }

/-- C1: evaluation of `DiffResources` at the failing input — set A empty,
set B a single `ClusterRole` named `baz`.  The resource's kind does not
occur in A at all, and the source's second loop places it in the
**Removed** bucket (and not in Added): `DiffResources` contradicts both
the claim and the documented contract of `ResourcesDiff.Added`/`Removed`. -/
theorem c1_b_only_resource_lands_in_removed :
    DiffResources cmpEmptyOk [] [rBaz] =
      .ok { Changed := [], Added := [], Removed := [rBaz],
            Unchanged := [] } := rfl

/-- The concrete result used by the C2 witness. -/
def dUnchOnly : ResourcesDiff :=
  { Changed := [], Added := [], Removed := [], Unchanged := [rKA] }

/-- C2 witness: the partition invariant applied at a concrete input
(A = B = one resource; the resource is Unchanged). -/
theorem c2_partition_witness :
    DiffResources cmpEmptyOk [rKA] [rKA] = .ok dUnchOnly ∧
    (addedIdents dUnchOnly ∪ removedIdents dUnchOnly ∪
        changedIdents dUnchOnly ∪ unchangedIdents dUnchOnly
        = identsIn [rKA] ∪ identsIn [rKA]) ∧
      Disjoint (addedIdents dUnchOnly) (removedIdents dUnchOnly) :=
  ⟨rfl,
    (c2_partition_invariant cmpEmptyOk [rKA] [rKA] dUnchOnly rfl).1,
    (c2_partition_invariant cmpEmptyOk [rKA] [rKA] dUnchOnly rfl).2.1⟩

def rRoleA : Resource :=
  { group := "rbac.authorization.k8s.io".toList, version := "v1".toList,
    kind := "Role".toList, name := "x".toList, body := .scalar .sNull }

def rRoleB : Resource :=
  { group := "other.example.com".toList, version := "v1".toList,
    kind := "Role".toList, name := "x".toList, body := .scalar .sNull }

/-- C3: two resources of equal kind and name but different API group.  The
`kube` grouping keys them apart (group and version are part of the key),
but the Helm-side grouping `resourceGroupsFromChart` keys by bare `Kind`,
so the second resource silently overwrites the first: the pair is *not*
treated as two distinct identities on that path, contradicting the claim
(and the expectations of the package's own test, which expects Changed
keys of the form `group/version/Kind/name`). -/
theorem c3_helm_grouping_collapses_groups :
    resourceGroupsFromChart [rRoleA, rRoleB] =
      [("Role".toList, [("x".toList, rRoleB)])] ∧
    (resourcesByGroupVersionKindAndName [rRoleA, rRoleB]).2 =
      [(groupVersionKindString rRoleA, [("x".toList, rRoleA)]),
       (groupVersionKindString rRoleB, [("x".toList, rRoleB)])] :=
  ⟨rfl, rfl⟩

/-- A comparator failing exactly on resources of kind `KindB`. -/
def cmpFailOnKindB : Cmp := fun x _ =>
  if x.kind = "KindB".toList then .error "compare failed".toList
  else .ok []

/-- C4 counterexample: with two matched identities of different kinds and
a comparator that fails on the second, `DiffResources` returns an error:
no classification is produced for *any* identity — the failing pair does
not merely lose its own result, it aborts the whole set reconciliation. -/
theorem c4_error_aborts_whole_reconciliation :
    DiffResources cmpFailOnKindB [rKA, rKB] [rKA, rKB] =
      .error "compare failed".toList := rfl

/-- C4 amended: when any matched pair's comparison fails, the whole
reconciliation returns an error (no `ResourcesDiff` is produced). -/
theorem c4_comparison_error_aborts (C : Cmp) (a b : List Resource)
    (h : ((resourcesByGroupVersionKindAndName a).2).all
        (entryOk C (resourcesByGroupVersionKindAndName b).2) = false) :
    (DiffResources C a b).isOk = false := by
  have hiso := diffGrouped_isOk C (resourcesByGroupVersionKindAndName a).2
    (resourcesByGroupVersionKindAndName b).2
  rw [show DiffResources C a b =
    diffGrouped C (resourcesByGroupVersionKindAndName a).2
      (resourcesByGroupVersionKindAndName b).2 from rfl, hiso, h]

theorem c4_witness :
    ((resourcesByGroupVersionKindAndName [rKA, rKB]).2).all
        (entryOk cmpFailOnKindB
          (resourcesByGroupVersionKindAndName [rKA, rKB]).2) = false ∧
      (DiffResources cmpFailOnKindB [rKA, rKB] [rKA, rKB]).isOk = false :=
  ⟨rfl, c4_comparison_error_aborts cmpFailOnKindB [rKA, rKB] [rKA, rKB] rfl⟩

/-! ### Iteration order (C9) -/

/-- Two presentations of the same grouping content, as a Go map may hand
them to `range` in two different runs. -/
def gOrder1 : GroupMap :=
  [("v1/KindA".toList, [("one".toList, rKA)]),
   ("v1/KindB".toList, [("two".toList, rKB)])]

def gOrder2 : GroupMap :=
  [("v1/KindB".toList, [("two".toList, rKB)]),
   ("v1/KindA".toList, [("one".toList, rKA)])]

/-- C9 counterexample: the same grouping content presented in two
iteration orders produces Removed buckets in different orders, so any
faithful rendering of the buckets (which lists them in slice order) is
not byte-identical across the two runs. -/
theorem c9_order_dependent_removed_bucket :
    gOrder1.Perm gOrder2 ∧
    diffGrouped cmpEmptyOk gOrder1 [] =
      .ok { Changed := [], Added := [], Removed := [rKA, rKB],
            Unchanged := [] } ∧
    diffGrouped cmpEmptyOk gOrder2 [] =
      .ok { Changed := [], Added := [], Removed := [rKB, rKA],
            Unchanged := [] } ∧
    [rKA, rKB].map Resource.name ≠ [rKB, rKA].map Resource.name :=
  ⟨List.Perm.swap _ _ _, rfl, rfl, by decide⟩

theorem lookupA_congr_perm {β : Type} {l l' : List (List Char × β)}
    (hp : l.Perm l') (hnd : (l.map Prod.fst).Nodup) :
    ∀ k, lookupA l k = lookupA l' k := by
  induction hp with
  | nil => intro k; rfl
  | cons x l₁ ih =>
      intro k
      obtain ⟨kx, vx⟩ := x
      by_cases hk : k = kx
      · subst hk; rw [lookupA_cons_eq, lookupA_cons_eq]
      · rw [lookupA_cons_ne hk, lookupA_cons_ne hk]
        exact ih (by
          simp only [List.map_cons, List.nodup_cons] at hnd
          exact hnd.2) k
  | swap x y l =>
      intro k
      obtain ⟨kx, vx⟩ := x
      obtain ⟨ky, vy⟩ := y
      have hxy : ky ≠ kx := by
        simp only [List.map_cons, List.nodup_cons, List.mem_cons] at hnd
        exact fun he => hnd.1 (Or.inl he)
      by_cases hk : k = ky
      · subst hk
        rw [lookupA_cons_eq, lookupA_cons_ne hxy, lookupA_cons_eq]
      · by_cases hk' : k = kx
        · subst hk'
          rw [lookupA_cons_ne hk, lookupA_cons_eq, lookupA_cons_eq]
        · rw [lookupA_cons_ne hk, lookupA_cons_ne hk',
            lookupA_cons_ne hk', lookupA_cons_ne hk]
  | trans h₁ h₂ ih₁ ih₂ =>
      intro k
      rw [ih₁ hnd k]
      exact ih₂ (((h₁.map Prod.fst).nodup_iff).1 hnd) k

/-- C9 amended: the reconciliation result is independent of the map
iteration order up to the ordering inside each bucket — for any two
presentations of the same grouping contents (permuted entry lists with
the well-formed groupings' distinct keys), one run succeeds iff the
other does, and all four buckets agree as multisets.  Byte-identical
formatted output, however, is not guaranteed (see the counterexample). -/
theorem c9_buckets_stable_up_to_order (C : Cmp) (gA gA' gB gB' : GroupMap)
    (hA : gA.Perm gA') (hB : gB.Perm gB')
    (hAnd : (gA.map Prod.fst).Nodup) (hBnd : (gB.map Prod.fst).Nodup)
    (d : ResourcesDiff) (h : diffGrouped C gA gB = .ok d) :
    ∃ d', diffGrouped C gA' gB' = .ok d' ∧
      d'.Removed.Perm d.Removed ∧ d'.Added.Perm d.Added ∧
      d'.Changed.Perm d.Changed ∧ d'.Unchanged.Perm d.Unchanged := by
  have hlookB : ∀ k, lookupA gB k = lookupA gB' k := lookupA_congr_perm hB hBnd
  have hlookA : ∀ k, lookupA gA k = lookupA gA' k := lookupA_congr_perm hA hAnd
  have hek : ∀ e, entryOk C gB' e = entryOk C gB e := by
    intro e; simp only [entryOk, ← hlookB]
  have hkr : ∀ e, kindRem gB' e = kindRem gB e := by
    intro e; simp only [kindRem, ← hlookB]
  have hkc : ∀ e, kindChg C gB' e = kindChg C gB e := by
    intro e; simp only [kindChg, ← hlookB]
  have hku : ∀ e, kindUnch C gB' e = kindUnch C gB e := by
    intro e; simp only [kindUnch, ← hlookB]
  have hpr : ∀ e, passRem gA' e = passRem gA e := by
    intro e; simp only [passRem, ← hlookA]
  have hpa : ∀ e, passAdd gA' e = passAdd gA e := by
    intro e; simp only [passAdd, ← hlookA]
  -- the permuted run succeeds
  have hok : (diffGrouped C gA gB).isOk = true := by rw [h]; rfl
  rw [diffGrouped_isOk] at hok
  have hall : ∀ e ∈ gA, entryOk C gB e = true := List.all_eq_true.1 hok
  have hok' : (diffGrouped C gA' gB').isOk = true := by
    rw [diffGrouped_isOk]
    exact List.all_eq_true.2 (fun e he =>
      (hek e).trans (hall e (hA.symm.subset he)))
  cases hres : diffGrouped C gA' gB' with
  | error e => rw [hres] at hok'; simp [Except.isOk, Except.toBool] at hok'
  | ok d' =>
      obtain ⟨hRem, hAdd, hChg, hUnch⟩ := diffGrouped_ok_eq C gA gB d h
      obtain ⟨hRem', hAdd', hChg', hUnch'⟩ :=
        diffGrouped_ok_eq C gA' gB' d' hres
      refine ⟨d', rfl, ?_, ?_, ?_, ?_⟩
      · rw [hRem, hRem', List.flatMap_congr (fun e _ => hkr e),
          List.flatMap_congr (fun e _ => hpr e)]
        exact (hA.symm.flatMap_right _).append (hB.symm.flatMap_right _)
      · rw [hAdd, hAdd', List.flatMap_congr (fun e _ => hpa e)]
        exact hB.symm.flatMap_right _
      · rw [hChg, hChg', List.flatMap_congr (fun e _ => hkc e)]
        exact hA.symm.flatMap_right _
      · rw [hUnch, hUnch', List.flatMap_congr (fun e _ => hku e)]
        exact hA.symm.flatMap_right _

/-- C9 amended witness: the congruence applied to the two concrete
presentations above. -/
theorem c9_buckets_stable_witness :
    gOrder1.Perm gOrder2 ∧
      (∃ d', diffGrouped cmpEmptyOk gOrder2 [] = .ok d' ∧
        d'.Removed.Perm [rKA, rKB] ∧ d'.Added.Perm [] ∧
        d'.Changed.Perm [] ∧ d'.Unchanged.Perm []) :=
  ⟨List.Perm.swap _ _ _,
    c9_buckets_stable_up_to_order cmpEmptyOk gOrder1 gOrder2 [] []
      (List.Perm.swap _ _ _) (List.Perm.refl [])
      (by decide) (by decide)
      { Changed := [], Added := [], Removed := [rKA, rKB], Unchanged := [] }
      rfl⟩

/-! ### Name normalization (C6, C10) -/

theorem group_fold_stored (M : Resource → Prop) :
    ∀ (rs : List Resource) (g : GroupMap),
      (∀ r ∈ rs, M r) →
      (∀ e ∈ g, ∀ f ∈ e.2, ∃ r, M r ∧ f.2 = normalizeRes r ∧
        f.1 = normalizeName r.name ∧ e.1 = groupVersionKindString r) →
      ∀ e ∈ rs.foldl groupInsert g, ∀ f ∈ e.2,
        ∃ r, M r ∧ f.2 = normalizeRes r ∧ f.1 = normalizeName r.name ∧
          e.1 = groupVersionKindString r := by
  intro rs
  induction rs with
  | nil => intro g _ hg; simpa using hg
  | cons r₀ rest ih =>
      intro g hM hg
      simp only [List.foldl_cons]
      refine ih (groupInsert g r₀)
        (fun r hr => hM r (List.mem_cons_of_mem _ hr)) ?_
      intro e he f hf
      rcases mem_setA he with he' | he'
      · subst he'
        rcases mem_setA hf with hf' | hf'
        · subst hf'
          exact ⟨r₀, hM r₀ (List.mem_cons_self _ _), rfl, rfl, rfl⟩
        · cases hl : lookupA g (groupVersionKindString r₀) with
          | none => rw [hl] at hf'; simp at hf'
          | some i =>
              rw [hl] at hf'
              simp only [Option.getD_some] at hf'
              exact hg _ (lookupA_mem hl) f hf'
      · exact hg e he' f hf

/-- C6: the grouping strips the synthetic `kube-inspect-` prefix before
the identity key is computed, and updates the document's name in place:
the caller-visible slice after the call holds the normalized documents,
and every document stored in the returned map is the normalized form of
an input document, stored under its normalized name and its
group-version-kind string. -/
theorem c6_normalization_strips_and_mutates (rs : List Resource) :
    (resourcesByGroupVersionKindAndName rs).1 = rs.map normalizeRes ∧
    ∀ e ∈ (resourcesByGroupVersionKindAndName rs).2, ∀ f ∈ e.2,
      ∃ r ∈ rs, f.2 = normalizeRes r ∧ f.1 = normalizeName r.name ∧
        e.1 = groupVersionKindString r := by
  refine ⟨rfl, ?_⟩
  intro e he f hf
  obtain ⟨r, hM, h1, h2, h3⟩ :=
    group_fold_stored (fun r => r ∈ rs) rs [] (fun _ hr => hr)
      (by simp) e he f hf
  exact ⟨r, hM, h1, h2, h3⟩

/-- A resource carrying the synthetic name prefix, for the C6 witness. -/
def rPfx : Resource :=
  { group := [], version := "v1".toList, kind := "ConfigMap".toList,
    name := "kube-inspect-app".toList, body := .scalar .sNull }

theorem c6_witness :
    (resourcesByGroupVersionKindAndName [rPfx]).1 = [normalizeRes rPfx] ∧
    normalizeRes rPfx =
      { group := [], version := "v1".toList, kind := "ConfigMap".toList,
        name := "app".toList, body := .scalar .sNull } ∧
    (∃ r ∈ [rPfx],
      ("app".toList, normalizeRes rPfx).2 = normalizeRes r ∧
        ("app".toList, normalizeRes rPfx).1 = normalizeName r.name ∧
        ("v1/ConfigMap".toList,
            [("app".toList, normalizeRes rPfx)]).1 =
          groupVersionKindString r) :=
  ⟨(c6_normalization_strips_and_mutates [rPfx]).1, rfl,
    (c6_normalization_strips_and_mutates [rPfx]).2
      ("v1/ConfigMap".toList, [("app".toList, normalizeRes rPfx)])
      (by rw [show (resourcesByGroupVersionKindAndName [rPfx]).2 =
            [("v1/ConfigMap".toList, [("app".toList, normalizeRes rPfx)])]
          from rfl]
          exact List.mem_singleton.2 rfl)
      ("app".toList, normalizeRes rPfx) (List.mem_singleton.2 rfl)⟩

theorem cutPfx_append (p s : List Char) : cutPfx p (p ++ s) = some s := by
  induction p with
  | nil => rfl
  | cons c ps ih => simp [cutPfx, ih]

/-- C10: normalization removes the synthetic prefix only at the very
start of the name and at most once per pass: a prefixed name loses
exactly the leading occurrence (a doubly prefixed name keeps one copy),
and a name on which `CutPrefix` fails — including names containing the
prefix in a non-leading position — is returned unchanged. -/
theorem c10_strip_only_leading_at_most_once (s : List Char) :
    normalizeName (kubeInspectPfx ++ s) = s ∧
    (cutPfx kubeInspectPfx s = none → normalizeName s = s) ∧
    normalizeName (kubeInspectPfx ++ (kubeInspectPfx ++ s)) =
      kubeInspectPfx ++ s := by
  refine ⟨?_, ?_, ?_⟩
  · simp [normalizeName, cutPfx_append]
  · intro h; simp [normalizeName, h]
  · simp [normalizeName, cutPfx_append]

theorem c10_witness :
    normalizeName (kubeInspectPfx ++ "web".toList) = "web".toList ∧
    normalizeName "xkube-inspect-y".toList = "xkube-inspect-y".toList ∧
    normalizeName (kubeInspectPfx ++ (kubeInspectPfx ++ "web".toList)) =
      kubeInspectPfx ++ "web".toList :=
  ⟨(c10_strip_only_leading_at_most_once ("web".toList)).1,
    (c10_strip_only_leading_at_most_once ("xkube-inspect-y".toList)).2.1 rfl,
    (c10_strip_only_leading_at_most_once ("web".toList)).2.2⟩

/-! ### Manifest decoding (C5, `ResourcesFromManifest`) -/

/-- One result of `decoder.Decode` on the raw YAML stream, combined with
the outcome of the subsequent typed parse: `emptyDoc` — a document whose
raw bytes are empty (skipped by the loop); `doc p` — a raw document whose
typed parse (`parser.Decode` + conversion + name extraction) yields `p`;
`corrupt` — `decoder.Decode` returns a non-EOF error (the loop treats any
error as end of stream and `break`s).  The end of the list is EOF. -/
inductive DecodeEvent where
  | emptyDoc
  | doc (parsed : Except (List Char) Resource)
  | corrupt

/-- `ResourcesFromManifest` (`kube/resource.go`): the decode loop over
the event stream of its buffer.  A `corrupt` event stops the loop and the
documents collected so far are returned with a nil error; a typed-parse
failure is returned as the error; otherwise every document is collected. -/
def ResourcesFromManifest : List DecodeEvent → Except (List Char) (List Resource)
  | [] => .ok []
  | .corrupt :: _ => .ok []
  | .emptyDoc :: rest => ResourcesFromManifest rest
  | .doc (.error e) :: _ => .error e
  | .doc (.ok r) :: rest =>
      match ResourcesFromManifest rest with
      | .error e => .error e
      | .ok rs => .ok (r :: rs)

/-- All documents of the stream that parse successfully. -/
def docsIn (s : List DecodeEvent) : List Resource :=
  s.filterMap (fun e =>
    match e with
    | .doc (.ok r) => some r
    | _ => none)

def noCorrupt (s : List DecodeEvent) : Bool :=
  s.all (fun e =>
    match e with
    | .corrupt => false
    | _ => true)

def noParseErr (s : List DecodeEvent) : Bool :=
  s.all (fun e =>
    match e with
    | .doc (.error _) => false
    | _ => true)

def streamTrunc : List DecodeEvent :=
  [.doc (.ok rKA), .corrupt, .doc (.ok rKB)]

/-- C5 counterexample: a buffer holding a good document, a malformed
document and another good document.  Decoding returns only the first
document and *no error*: the malformed document neither fails the call
nor lets the later document through — documents are silently dropped. -/
theorem c5_malformed_doc_silently_truncates :
    ResourcesFromManifest streamTrunc = .ok [rKA] ∧
    docsIn streamTrunc = [rKA, rKB] ∧
    ([rKA] : List Resource).length ≠ (docsIn streamTrunc).length :=
  ⟨rfl, rfl, by decide⟩

theorem rfm_truncates (s₂ : List DecodeEvent) :
    ∀ s₁, noCorrupt s₁ = true →
      ResourcesFromManifest (s₁ ++ .corrupt :: s₂) =
        ResourcesFromManifest s₁ := by
  intro s₁
  induction s₁ with
  | nil => intro _; rfl
  | cons e rest ih =>
      intro h
      have hrest : noCorrupt rest = true := by
        simp only [noCorrupt, List.all_cons, Bool.and_eq_true] at h
        exact h.2
      cases e with
      | emptyDoc => simpa [ResourcesFromManifest] using ih hrest
      | corrupt => simp [noCorrupt] at h
      | doc p =>
          cases p with
          | error e => simp [ResourcesFromManifest]
          | ok r => simp [ResourcesFromManifest, ih hrest]

theorem rfm_complete :
    ∀ s, noCorrupt s = true → noParseErr s = true →
      ResourcesFromManifest s = .ok (docsIn s) := by
  intro s
  induction s with
  | nil => intro _ _; rfl
  | cons e rest ih =>
      intro hc hp
      have hc' : noCorrupt rest = true := by
        simp only [noCorrupt, List.all_cons, Bool.and_eq_true] at hc
        exact hc.2
      have hp' : noParseErr rest = true := by
        simp only [noParseErr, List.all_cons, Bool.and_eq_true] at hp
        exact hp.2
      cases e with
      | emptyDoc => simpa [ResourcesFromManifest, docsIn] using ih hc' hp'
      | corrupt => simp [noCorrupt] at hc
      | doc p =>
          cases p with
          | error e => simp [noParseErr] at hp
          | ok r => simp [ResourcesFromManifest, docsIn, ih hc' hp']

/-- C5 amended: decoding returns exactly the documents that precede the
first raw-level decoder failure (silently dropping that document and all
later ones), and returns an error only for a typed-parse failure; when
the stream has no raw-level failure and no parse failure, every document
is returned. -/
theorem c5_truncation_behaviour (s₁ s₂ : List DecodeEvent)
    (h : noCorrupt s₁ = true) :
    ResourcesFromManifest (s₁ ++ .corrupt :: s₂) =
        ResourcesFromManifest s₁ ∧
      (noParseErr s₁ = true →
        ResourcesFromManifest s₁ = .ok (docsIn s₁)) :=
  ⟨rfm_truncates s₂ s₁ h, fun hp => rfm_complete s₁ h hp⟩

theorem c5_witness :
    noCorrupt [DecodeEvent.doc (.ok rKA)] = true ∧
      ResourcesFromManifest
          ([DecodeEvent.doc (.ok rKA)] ++ .corrupt :: [.doc (.ok rKB)]) =
        ResourcesFromManifest [DecodeEvent.doc (.ok rKA)] ∧
      ResourcesFromManifest [DecodeEvent.doc (.ok rKA)] =
        .ok (docsIn [DecodeEvent.doc (.ok rKA)]) :=
  ⟨rfl,
    (c5_truncation_behaviour [DecodeEvent.doc (.ok rKA)]
      [DecodeEvent.doc (.ok rKB)] rfl).1,
    (c5_truncation_behaviour [DecodeEvent.doc (.ok rKA)]
      [DecodeEvent.doc (.ok rKB)] rfl).2 rfl⟩

end KubeInspect
